import Mathlib

/-!
Verification development for the KaiVM core: a shallow embedding, in Lean 4,
of the MJPEG capture pipeline, the HID gadget I/O layer and the agent runner
(`kaivm/capture/ffmpeg_mjpeg.py`, `kaivm/hid/mouse.py`, `kaivm/hid/keyboard.py`,
`kaivm/agent/validate.py`, `kaivm/agent/runner.py`), together with proofs and
refutations of the stated properties.

Conventions of the embedding:
* Python `bytes` values are `List Nat` (each element a byte value).
* Python `str` values are `List Char` (the helper `chars` converts literals).
* Python machine integers are `Int` with explicit `% 256` where the code masks.
* Python floats in the calibration path are modelled as `ℚ`; Python `round`
  (round-half-to-even) is `pyRound`.  Every concrete input used in a theorem
  below is exactly representable, so the rational model agrees with the float
  code on those inputs.
* Fallible code (`raise`) is `Except`/`Option`.
-/

/-- Convert a string literal to the `List Char` representation used for Python
strings throughout this development. -/
def chars (s : String) : List Char := s.toList

/-! ### Relative mouse: `kaivm/hid/mouse.py`
`_to_i8` clamps to `[-127, 127]` and masks with `& 0xFF`; `_pack` builds the
3-byte boot-mouse report; `MouseHID.move` chunks a large move with
`step = max(-127, min(127, d))` per axis until both remainders are zero. -/

/-- The clamped per-report step `max(-127, min(127, z))` used by `MouseHID.move`. -/
def chunkStep (z : ℤ) : ℤ := max (-127) (min 127 z)

/-- `_to_i8`: clamp to `[-127,127]`, then `& 0xFF` (two's-complement byte). -/
def toI8 (x : ℤ) : ℕ := ((chunkStep x) % 256).toNat

/-- `_pack(btn, dx, dy)`: the 3-byte relative report `[btn & 0xFF, dx_i8, dy_i8]`. -/
def packRel (btn : ℕ) (dx dy : ℤ) : List ℕ := [btn % 256, toI8 dx, toI8 dy]

/-- Decode a report byte as a signed 8-bit value. -/
def decodeI8 (b : ℕ) : ℤ := if 128 ≤ b then (b : ℤ) - 256 else (b : ℤ)

theorem chunkStep_sub_natAbs_le (z : ℤ) : (z - chunkStep z).natAbs ≤ z.natAbs := by
  simp only [chunkStep, max_def, min_def]
  split_ifs <;> omega

theorem chunkStep_sub_natAbs_lt (z : ℤ) (h : z ≠ 0) :
    (z - chunkStep z).natAbs < z.natAbs := by
  simp only [chunkStep, max_def, min_def]
  split_ifs <;> omega

/-- The sequence of `(step_x, step_y)` chunks emitted by `MouseHID.move(dx, dy)`:
the loop runs while `dx != 0 or dy != 0`, each iteration sending
`send_report(0, step_x, step_y)` and subtracting the steps. -/
def moveChunks (dx dy : ℤ) : List (ℤ × ℤ) :=
  if dx = 0 ∧ dy = 0 then []
  else (chunkStep dx, chunkStep dy) :: moveChunks (dx - chunkStep dx) (dy - chunkStep dy)
termination_by dx.natAbs + dy.natAbs
decreasing_by
  have h1 := chunkStep_sub_natAbs_le dx
  have h2 := chunkStep_sub_natAbs_le dy
  have h3 : dx ≠ 0 ∨ dy ≠ 0 := by tauto
  rcases h3 with h3 | h3
  · have := chunkStep_sub_natAbs_lt dx h3; omega
  · have := chunkStep_sub_natAbs_lt dy h3; omega

/-- The 3-byte reports emitted by `MouseHID.move(dx, dy)` (buttons byte 0). -/
def relMoveReports (dx dy : ℤ) : List (List ℕ) :=
  (moveChunks dx dy).map (fun c => packRel 0 c.1 c.2)

theorem chunkStep_mem_range (z : ℤ) : -127 ≤ chunkStep z ∧ chunkStep z ≤ 127 := by
  simp only [chunkStep, max_def, min_def]
  split_ifs <;> omega

theorem toI8_decode (z : ℤ) : decodeI8 (toI8 z) = chunkStep z := by
  have h := chunkStep_mem_range z
  simp only [toI8, decodeI8]
  split_ifs <;> omega

theorem toI8_decode_of_range (z : ℤ) (h1 : -127 ≤ z) (h2 : z ≤ 127) :
    decodeI8 (toI8 z) = z := by
  rw [toI8_decode]
  simp only [chunkStep, max_def, min_def]
  split_ifs <;> omega

theorem moveChunks_spec (dx dy : ℤ) :
    ((moveChunks dx dy).map Prod.fst).sum = dx ∧
    ((moveChunks dx dy).map Prod.snd).sum = dy ∧
    ((moveChunks dx dy).all
      (fun c => decide (-127 ≤ c.1) && decide (c.1 ≤ 127) &&
                decide (-127 ≤ c.2) && decide (c.2 ≤ 127))) = true := by
  induction dx, dy using moveChunks.induct with
  | case1 dx dy h =>
    simp [moveChunks, h.1, h.2]
  | case2 dx dy h ih =>
    obtain ⟨s1, s2, s3⟩ := ih
    have hx := chunkStep_mem_range dx
    have hy := chunkStep_mem_range dy
    rw [moveChunks]
    simp only [if_neg h, List.map_cons, List.sum_cons, List.all_cons]
    refine ⟨by omega, by omega, ?_⟩
    simp only [s3, Bool.and_eq_true, decide_eq_true_eq, and_true]
    exact ⟨⟨⟨by omega, by omega⟩, by omega⟩, by omega⟩

/-- C4: for every `(dx, dy)`, the chunking loop of `MouseHID.move` terminates
(it is a total function here), each per-report delta is in `[-127, 127]`, the
per-axis sums of the chunks recover `dx` and `dy`, and the dx/dy bytes of the
emitted 3-byte reports decode (as i8) back to exactly those chunks. -/
theorem mouse_move_chunking (dx dy : ℤ) :
    ((moveChunks dx dy).map Prod.fst).sum = dx ∧
    ((moveChunks dx dy).map Prod.snd).sum = dy ∧
    ((moveChunks dx dy).all
      (fun c => decide (-127 ≤ c.1) && decide (c.1 ≤ 127) &&
                decide (-127 ≤ c.2) && decide (c.2 ≤ 127))) = true ∧
    ((relMoveReports dx dy).map (fun r => decodeI8 (r.getD 1 0))).sum = dx ∧
    ((relMoveReports dx dy).map (fun r => decodeI8 (r.getD 2 0))).sum = dy := by
  obtain ⟨s1, s2, s3⟩ := moveChunks_spec dx dy
  rw [List.all_eq_true] at s3
  refine ⟨s1, s2, by rw [List.all_eq_true]; exact s3, ?_, ?_⟩
  · rw [relMoveReports, List.map_map]
    rw [show ((fun r => decodeI8 (r.getD 1 0)) ∘ fun c : ℤ × ℤ => packRel 0 c.1 c.2)
          = fun c : ℤ × ℤ => decodeI8 (toI8 c.1) from rfl]
    rw [List.map_congr_left (fun c hc => ?_), s1]
    have h := s3 c hc
    simp only [Bool.and_eq_true, decide_eq_true_eq] at h
    exact toI8_decode_of_range c.1 h.1.1.1 h.1.1.2
  · rw [relMoveReports, List.map_map]
    rw [show ((fun r => decodeI8 (r.getD 2 0)) ∘ fun c : ℤ × ℤ => packRel 0 c.1 c.2)
          = fun c : ℤ × ℤ => decodeI8 (toI8 c.2) from rfl]
    rw [List.map_congr_left (fun c hc => ?_), s2]
    have h := s3 c hc
    simp only [Bool.and_eq_true, decide_eq_true_eq] at h
    exact toI8_decode_of_range c.2 h.1.2 h.2

/-! ### MJPEG frame extraction: `FfmpegMJPEGReader.frames`
The reader accumulates stdout chunks into `buf` and repeatedly looks for the
first SOI (`FF D8`); if found, for the first EOI (`FF D9`) at an index
`≥ start + 2`; on success it yields `bytes(buf[start : end+2])` and deletes the
consumed part.  `findMk a b l` is `bytes.find` for the two-byte pattern `a b`
(first index, or `none`), and `extractFrames` is the inner `while True` loop:
it returns the yielded frames and the retained buffer. -/

/-- First index at which the two consecutive bytes `a b` occur in `l`. -/
def findMk (a b : ℕ) : List ℕ → Option ℕ
  | x :: y :: rest => if x = a ∧ y = b then some 0 else (findMk a b (y :: rest)).map (· + 1)
  | _ => none

theorem findMk_some (a b : ℕ) : ∀ (l : List ℕ) (i : ℕ), findMk a b l = some i →
    l.getD i 0 = a ∧ l.getD (i + 1) 0 = b ∧ i + 1 < l.length ∧
    ∀ j, j < i → ¬(l.getD j 0 = a ∧ l.getD (j + 1) 0 = b) := by
  intro l
  induction l with
  | nil => intro i h; simp [findMk] at h
  | cons x tl ih =>
    intro i h
    match tl with
    | [] => simp [findMk] at h
    | y :: rest =>
      rw [findMk] at h
      split_ifs at h with hxy
      · cases h
        refine ⟨hxy.1, hxy.2, by simp, ?_⟩
        intro j hj; omega
      · simp only [Option.map_eq_some'] at h
        obtain ⟨i', hi', rfl⟩ := h
        obtain ⟨h1, h2, h3, h4⟩ := ih i' hi'
        refine ⟨h1, h2, by simpa using h3, ?_⟩
        intro j hj
        match j with
        | 0 => simpa using hxy
        | j' + 1 =>
          have := h4 j' (by omega)
          simpa using this

/-- The inner extraction loop of `FfmpegMJPEGReader.frames`: repeatedly find
SOI; if absent, keep (a possibly trimmed) buffer; find EOI from `start + 2`
on; if absent, retain from SOI onward; otherwise yield `buf[start : end+2]`
and continue on the remainder.  Returns (yielded frames, retained buffer). -/
def extractFrames (buf : List ℕ) : List (List ℕ) × List ℕ :=
  match hs : findMk 0xFF 0xD8 buf with
  | none => ([], if 3000000 < buf.length then buf.drop (buf.length - 2048) else buf)
  | some s =>
    match he : findMk 0xFF 0xD9 (buf.drop (s + 2)) with
    | none => ([], buf.drop s)
    | some e =>
      let res := extractFrames (buf.drop (s + e + 4))
      (((buf.drop s).take (e + 4)) :: res.1, res.2)
termination_by buf.length
decreasing_by
  have h1 := (findMk_some 0xFF 0xD8 buf s hs).2.2.1
  simp only [List.length_drop]
  omega

/-- Whether a byte list is a well-delimited JPEG frame: it starts with
`FF D8`, ends with `FF D9`, and contains no occurrence of `FF D9` other than
the final terminator. -/
def goodFrame (f : List ℕ) : Bool :=
  decide (4 ≤ f.length) &&
  decide (f.getD 0 0 = 0xFF) && decide (f.getD 1 0 = 0xD8) &&
  decide (f.getD (f.length - 2) 0 = 0xFF) && decide (f.getD (f.length - 1) 0 = 0xD9) &&
  (List.range (f.length - 2)).all
    (fun i => !(decide (f.getD i 0 = 0xFF) && decide (f.getD (i + 1) 0 = 0xD9)))

theorem getD_take_drop (l : List ℕ) (s n i : ℕ) (hi : i < n) :
    ((l.drop s).take n).getD i 0 = l.getD (s + i) 0 := by
  show (((l.drop s).take n).get? i).getD 0 = (l.get? (s + i)).getD 0
  rw [List.get?_take hi, List.get?_drop]

theorem getD_drop (l : List ℕ) (s i : ℕ) : (l.drop s).getD i 0 = l.getD (s + i) 0 := by
  show ((l.drop s).get? i).getD 0 = (l.get? (s + i)).getD 0
  rw [List.get?_drop]

theorem goodFrame_of_finds (buf : List ℕ) (s e : ℕ)
    (hs : findMk 0xFF 0xD8 buf = some s)
    (he : findMk 0xFF 0xD9 (buf.drop (s + 2)) = some e) :
    goodFrame ((buf.drop s).take (e + 4)) = true := by
  obtain ⟨a1, a2, a3, -⟩ := findMk_some _ _ buf s hs
  obtain ⟨b1, b2, b3, b4⟩ := findMk_some _ _ (buf.drop (s + 2)) e he
  rw [List.length_drop] at b3
  have hlen : s + e + 3 < buf.length := by omega
  have flen : ((buf.drop s).take (e + 4)).length = e + 4 := by
    simp only [List.length_take, List.length_drop]
    omega
  rw [getD_drop] at b1 b2
  simp only [goodFrame, flen, Bool.and_eq_true, decide_eq_true_eq, List.all_eq_true,
    List.mem_range]
  refine ⟨⟨⟨⟨⟨by omega, ?_⟩, ?_⟩, ?_⟩, ?_⟩, ?_⟩
  · rw [getD_take_drop _ _ _ _ (by omega)]
    simpa using a1
  · rw [getD_take_drop _ _ _ _ (by omega)]
    exact a2
  · have : e + 4 - 2 = e + 2 := by omega
    rw [this, getD_take_drop _ _ _ _ (by omega)]
    have : s + (e + 2) = s + 2 + e := by omega
    rw [this]
    exact b1
  · have : e + 4 - 1 = e + 3 := by omega
    rw [this, getD_take_drop _ _ _ _ (by omega)]
    have : s + (e + 3) = s + 2 + (e + 1) := by omega
    rw [this]
    exact b2
  · intro i hi
    simp only [Bool.not_eq_true', Bool.and_eq_false_iff, decide_eq_false_iff_not]
    match i with
    | 0 =>
      right
      rw [getD_take_drop _ _ _ _ (by omega)]
      rw [show s + 1 = s + 1 from rfl] at a2
      intro hcon
      rw [a2] at hcon
      omega
    | 1 =>
      left
      rw [getD_take_drop _ _ _ _ (by omega)]
      intro hcon
      rw [a2] at hcon
      omega
    | j + 2 =>
      have hj : j < e := by omega
      have hb := b4 j hj
      rw [getD_drop, getD_drop] at hb
      rw [getD_take_drop _ _ _ _ (by omega), getD_take_drop _ _ _ _ (by omega)]
      by_cases hFF : buf.getD (s + (j + 2)) 0 = 0xFF
      · right
        intro hcon
        exact hb ⟨by rw [show s + 2 + j = s + (j + 2) from by omega]; exact hFF,
                  by rw [show s + 2 + (j + 1) = s + (j + 3) from by omega]; exact hcon⟩
      · left; exact hFF

theorem extractFrames_eq_no_soi (buf : List ℕ) (hs : findMk 0xFF 0xD8 buf = none) :
    extractFrames buf
      = ([], if 3000000 < buf.length then buf.drop (buf.length - 2048) else buf) := by
  rw [extractFrames]
  split
  · rfl
  · next s' hsome =>
    rw [hsome] at hs
    cases hs

theorem extractFrames_eq_no_eoi (buf : List ℕ) (s : ℕ)
    (hs : findMk 0xFF 0xD8 buf = some s)
    (he : findMk 0xFF 0xD9 (buf.drop (s + 2)) = none) :
    extractFrames buf = ([], buf.drop s) := by
  rw [extractFrames]
  split
  · next hnone => rw [hnone] at hs; cases hs
  · next s' hsome =>
    rw [hsome] at hs
    injection hs with h
    subst h
    split
    · rfl
    · next e' hsome2 => rw [hsome2] at he; cases he

theorem extractFrames_eq_frame (buf : List ℕ) (s e : ℕ)
    (hs : findMk 0xFF 0xD8 buf = some s)
    (he : findMk 0xFF 0xD9 (buf.drop (s + 2)) = some e) :
    extractFrames buf
      = (((buf.drop s).take (e + 4)) :: (extractFrames (buf.drop (s + e + 4))).1,
         (extractFrames (buf.drop (s + e + 4))).2) := by
  rw [extractFrames]
  split
  · next hnone => rw [hnone] at hs; cases hs
  · next s' hsome =>
    rw [hsome] at hs
    injection hs with h
    subst h
    split
    · next hnone => rw [hnone] at he; cases he
    · next e' hsome2 =>
      rw [hsome2] at he
      injection he with h2
      subst h2
      rfl

theorem extractFrames_all_good (buf : List ℕ) :
    ((extractFrames buf).1.all goodFrame) = true := by
  induction buf using extractFrames.induct with
  | case1 buf hs => rw [extractFrames_eq_no_soi buf hs]; rfl
  | case2 buf s hs he => rw [extractFrames_eq_no_eoi buf s hs he]; rfl
  | case3 buf s hs e he ih =>
    rw [extractFrames_eq_frame buf s e hs he]
    simp only [List.all_cons, Bool.and_eq_true]
    exact ⟨goodFrame_of_finds buf s e hs he, ih⟩

/-- C1: every frame yielded by the SOI/EOI frame extractor begins with
`FF D8`, ends with `FF D9`, and contains no other occurrence of `FF D9` than
the terminator; consequently so does every frame actually handed on by
`run_capture_loop` to the snapshot publisher `_atomic_write` or to
`LiveMJPEGStreamer.push`, since the loop forwards each yielded `jpeg`
unmodified, subject only to a rate-limit selection (modelled here by an
arbitrary filter `deliver`). -/
theorem mjpeg_frames_integrity (buf : List ℕ) (deliver : List ℕ → Bool) :
    ((extractFrames buf).1.all goodFrame) = true ∧
    (((extractFrames buf).1.filter deliver).all goodFrame) = true := by
  have h := extractFrames_all_good buf
  rw [List.all_eq_true] at h
  refine ⟨by rw [List.all_eq_true]; exact h, ?_⟩
  rw [List.all_eq_true]
  intro x hx
  exact h x (List.mem_of_mem_filter hx)

/-! ### Live streamer queue: `LiveMJPEGStreamer`
The streamer owns `queue.Queue(maxsize=max(1, queue_size))` and a stop event.
`push` returns immediately when stopped; otherwise `put_nowait`, and on `Full`
it `get_nowait`s one element (drop-oldest) and retries `put_nowait` once.
The model below is the queue as seen with no concurrent consumer. -/

structure StreamerState where
  stopped : Bool
  q : List (List ℕ)
  maxsize : ℕ
deriving DecidableEq

/-- `LiveMJPEGStreamer.__init__` with `queue_size`: queue capacity
`max(1, queue_size)`, not stopped, empty queue. -/
def mkStreamer (queueSize : ℕ) : StreamerState :=
  { stopped := false, q := [], maxsize := max 1 queueSize }

/-- `LiveMJPEGStreamer.push(jpeg)`. -/
def streamerPush (s : StreamerState) (jpeg : List ℕ) : StreamerState :=
  if s.stopped then s
  else if s.q.length < s.maxsize then { s with q := s.q ++ [jpeg] }
  else
    let q1 := if s.q.isEmpty then s.q else s.q.tail
    if q1.length < s.maxsize then { s with q := q1 ++ [jpeg] } else { s with q := q1 }

/-- `LiveMJPEGStreamer.stop()`: set the stop event, then best-effort
`put_nowait(b"")` to unblock the writer thread. -/
def streamerStop (s : StreamerState) : StreamerState :=
  let s' := { s with stopped := true }
  if s'.q.length < s'.maxsize then { s' with q := s'.q ++ [[]] } else s'

/-- Push a sequence of frames in order. -/
def streamerPushAll (s : StreamerState) (frames : List (List ℕ)) : StreamerState :=
  frames.foldl streamerPush s

/-- The last `n` elements of a list. -/
def lastN (n : ℕ) (l : List α) : List α := l.drop (l.length - n)

theorem lastN_eq_reverse_take (n : ℕ) (l : List α) :
    lastN n l = (l.reverse.take n).reverse := by
  rw [lastN, ← List.reverse_reverse (l.drop (l.length - n)), List.reverse_drop]
  congr 1
  exact List.take_eq_take.mpr (by rw [List.length_reverse]; omega)

theorem take_append_take_absorb (n : ℕ) (a b : List α) :
    (a ++ b.take n).take n = (a ++ b).take n := by
  rw [List.take_append_eq_append_take, List.take_append_eq_append_take, List.take_take]
  congr 2
  omega

theorem lastN_append_absorb (n : ℕ) (x r : List α) :
    lastN n (lastN n x ++ r) = lastN n (x ++ r) := by
  rw [lastN_eq_reverse_take, lastN_eq_reverse_take, lastN_eq_reverse_take,
      List.reverse_append, List.reverse_append, List.reverse_reverse,
      take_append_take_absorb]

theorem lastN_of_le (n : ℕ) (l : List α) (h : l.length ≤ n) : lastN n l = l := by
  rw [lastN, show l.length - n = 0 from by omega, List.drop_zero]

theorem streamerPush_queue (s : StreamerState) (f : List ℕ)
    (hstop : s.stopped = false) (hlen : s.q.length ≤ s.maxsize) (hmax : 1 ≤ s.maxsize) :
    (streamerPush s f).q = lastN s.maxsize (s.q ++ [f]) ∧
    (streamerPush s f).stopped = false ∧
    (streamerPush s f).maxsize = s.maxsize ∧
    (streamerPush s f).q.length ≤ s.maxsize := by
  have hne : s.q.length = s.maxsize → s.q.isEmpty = false := by
    intro hq
    cases hq' : s.q with
    | nil => rw [hq'] at hq; simp at hq; omega
    | cons a l => rfl
  by_cases hfull : s.q.length < s.maxsize
  · have hpush : streamerPush s f = { s with q := s.q ++ [f] } := by
      rw [streamerPush, hstop]
      simp only [Bool.false_eq_true, if_false, if_pos hfull]
    rw [hpush, lastN_of_le _ _ (by simp; omega)]
    exact ⟨rfl, hstop, rfl, by simp; omega⟩
  · have hq : s.q.length = s.maxsize := by omega
    have htail : s.q.tail.length < s.maxsize := by
      simp only [List.length_tail]
      omega
    have hpush : streamerPush s f = { s with q := s.q.tail ++ [f] } := by
      rw [streamerPush, hstop]
      simp only [Bool.false_eq_true, if_false, if_neg hfull, hne hq, if_pos htail]
    rw [hpush]
    refine ⟨?_, hstop, rfl, by simp only [List.length_append, List.length_tail]; simp; omega⟩
    rw [lastN, show (s.q ++ [f]).length - s.maxsize = 1 from by simp [hq]]
    rw [List.drop_append_of_le_length (by omega)]
    cases hq' : s.q with
    | nil => rw [hq'] at hq; simp at hq; omega
    | cons a l => simp

theorem streamerPushAll_queue (frames : List (List ℕ)) :
    ∀ (s : StreamerState),
    s.stopped = false → s.q.length ≤ s.maxsize → 1 ≤ s.maxsize →
    (streamerPushAll s frames).q = lastN s.maxsize (s.q ++ frames) ∧
    (streamerPushAll s frames).q.length ≤ s.maxsize := by
  induction frames with
  | nil =>
    intro s h1 h2 h3
    simp only [streamerPushAll, List.foldl_nil, List.append_nil]
    exact ⟨(lastN_of_le _ _ h2).symm, h2⟩
  | cons f rest ih =>
    intro s h1 h2 h3
    obtain ⟨p1, p2, p3, p4⟩ := streamerPush_queue s f h1 h2 h3
    have hind := ih (streamerPush s f) p2 (by rw [p3]; exact p4) (by rw [p3]; exact h3)
    rw [p3] at hind
    obtain ⟨r1, r2⟩ := hind
    refine ⟨?_, r2⟩
    have hfold : streamerPushAll s (f :: rest) = streamerPushAll (streamerPush s f) rest := rfl
    rw [hfold, r1, p1, lastN_append_absorb]
    simp

/-- C8: pushing a sequence of frames into a fresh streamer with capacity
`Q ≥ 1` and no concurrent consumer leaves the queue holding exactly the `Q`
most recently pushed frames, in push order, and never more than `Q` frames.
(`streamerPush` enqueues when there is room and otherwise drops the oldest
queued frame before enqueueing the new one.) -/
theorem streamer_drop_oldest (Q : ℕ) (frames : List (List ℕ)) (hQ : 1 ≤ Q) :
    (streamerPushAll (mkStreamer Q) frames).q = lastN Q frames ∧
    (streamerPushAll (mkStreamer Q) frames).q.length ≤ Q := by
  have hmax : (mkStreamer Q).maxsize = Q := by
    simp [mkStreamer]; omega
  have := streamerPushAll_queue frames (mkStreamer Q) rfl (by simp [mkStreamer]) (by simp [mkStreamer])
  rw [hmax] at this
  simpa [mkStreamer] using this

/-- Witness for C8 at `Q = 2` with three pushed frames: the queue retains the
last two frames in order. -/
theorem streamer_drop_oldest_witness :
    (1 ≤ 2) ∧
    (streamerPushAll (mkStreamer 2) [[1], [2], [3]]).q = lastN 2 [[1], [2], [3]] ∧
    (streamerPushAll (mkStreamer 2) [[1], [2], [3]]).q.length ≤ 2 :=
  ⟨by decide, streamer_drop_oldest 2 [[1], [2], [3]] (by decide)⟩

/-- C10: once the stop event is set, `push` is a no-op: it returns before
touching the queue, so the state (in particular the queue contents) is
unchanged. -/
theorem streamer_push_after_stop (s : StreamerState) (f : List ℕ)
    (h : s.stopped = true) : streamerPush s f = s := by
  simp [streamerPush, h]

/-- Witness for C10: pushing into a concretely stopped streamer changes
nothing. -/
theorem streamer_push_after_stop_witness :
    ({ stopped := true, q := [[5]], maxsize := 2 } : StreamerState).stopped = true ∧
    streamerPush { stopped := true, q := [[5]], maxsize := 2 } [9]
      = { stopped := true, q := [[5]], maxsize := 2 } :=
  ⟨rfl, streamer_push_after_stop _ [9] rfl⟩

/-! ### Absolute mouse: `AbsoluteMouseHID` and `KaiVMAgent._to_abs_hid`
`_to_abs_hid` maps planner coordinates in `[0, 1000]` through
`n = coord/1000`, the affine calibration `n*scale + offset`, and
`int(round(n * 32767))`.  Python `round` is round-half-to-even (`pyRound`).
`send_report` clamps to `[0, 32767]` and emits the 5-byte report
`[buttons & 0xFF, x & 0xFF, (x >> 8) & 0xFF, y & 0xFF, (y >> 8) & 0xFF]`;
`click` emits move (buttons 0), press (mask), release (buttons 0) at the same
position.  The float arithmetic is modelled over `ℚ`; on the concrete inputs
used below every intermediate float value is exactly representable, so the
models agree. -/

/-- Python `round` (banker's rounding, half to even) followed by `int`. -/
def pyRound (q : ℚ) : ℤ :=
  let f := ⌊q⌋
  let r := q - (f : ℚ)
  if r < 1/2 then f
  else if 1/2 < r then f + 1
  else if f % 2 = 0 then f else f + 1

/-- `KaiVMAgent._to_abs_hid(x, y)` under calibration
`(cal_x_scale, cal_y_scale, cal_x_offset, cal_y_offset) = (sx, sy, ox, oy)`. -/
def toAbsHid (sx sy ox oy : ℚ) (x y : ℤ) : ℤ × ℤ :=
  (pyRound (((x : ℚ) / 1000 * sx + ox) * 32767),
   pyRound (((y : ℚ) / 1000 * sy + oy) * 32767))

/-- The clamp `max(0, min(32767, v))` in `AbsoluteMouseHID.send_report`. -/
def clampAbs (v : ℤ) : ℤ := max 0 (min 32767 v)

/-- The 5-byte absolute report built by `AbsoluteMouseHID.send_report`. -/
def absReport (buttons : ℕ) (x y : ℤ) : List ℕ :=
  [buttons % 256,
   (clampAbs x).toNat % 256, ((clampAbs x).toNat / 256) % 256,
   (clampAbs y).toNat % 256, ((clampAbs y).toNat / 256) % 256]

/-- The `BUTTONS` table shared by both mice. -/
def buttonMask (b : List Char) : Option ℕ :=
  if b = chars "left" then some 1
  else if b = chars "right" then some 2
  else if b = chars "middle" then some 4
  else none

/-- `AbsoluteMouseHID.click(x, y, button)`: raises on an unknown button, else
emits move (buttons 0), press (mask), release (buttons 0), all at `(x, y)`. -/
def absClick (button : List Char) (x y : ℤ) : Option (List (List ℕ)) :=
  (buttonMask button).map (fun mask => [absReport 0 x y, absReport mask x y, absReport 0 x y])

/-- The reports emitted by `KaiVMAgent._execute` for an absolute click at
planner coordinates `(x, y)`: `_to_abs_hid` then `AbsoluteMouseHID.click`. -/
def agentClickReports (sx sy ox oy : ℚ) (x y : ℤ) (button : List Char) :
    Option (List (List ℕ)) :=
  absClick button (toAbsHid sx sy ox oy x y).1 (toAbsHid sx sy ox oy x y).2

theorem pyRound_int_add_half (f : ℤ) :
    pyRound ((f : ℚ) + 1/2) = if f % 2 = 0 then f else f + 1 := by
  have hf : ⌊(f : ℚ) + 1/2⌋ = f := by
    rw [Int.floor_int_add]
    norm_num
  simp only [pyRound, hf]
  have hr : (f : ℚ) + 1/2 - (f : ℚ) = 1/2 := by ring
  rw [hr]
  norm_num

theorem pyRound_intCast (f : ℤ) : pyRound (f : ℚ) = f := by
  have hf : ⌊(f : ℚ)⌋ = f := Int.floor_intCast f
  simp only [pyRound, hf]
  norm_num

theorem toAbsHid_center : toAbsHid 1 1 0 0 500 500 = (16384, 16384) := by
  unfold toAbsHid
  rw [show (((500 : ℤ) : ℚ) / 1000 * 1 + 0) * 32767 = ((16383 : ℤ) : ℚ) + 1/2 from by
        push_cast; norm_num]
  rw [pyRound_int_add_half]
  norm_num

/-- C2 counterexample: with identity calibration, `click(500, 500, "left")`
computes `round(0.5 * 32767) = round(16383.5) = 16384 = 0x4000` (Python rounds
half to even), not `16383 = 0x3FFF`; the three reports carry bytes
`00 40` (lo, hi) per axis, so the claimed report bytes `FF 3F` are not
emitted. -/
theorem abs_click_center_counterexample :
    toAbsHid 1 1 0 0 500 500 = (16384, 16384) ∧
    agentClickReports 1 1 0 0 500 500 (chars "left")
      = some [[0, 0x00, 0x40, 0x00, 0x40],
              [1, 0x00, 0x40, 0x00, 0x40],
              [0, 0x00, 0x40, 0x00, 0x40]] ∧
    agentClickReports 1 1 0 0 500 500 (chars "left")
      ≠ some [[0, 0xFF, 0x3F, 0xFF, 0x3F],
              [1, 0xFF, 0x3F, 0xFF, 0x3F],
              [0, 0xFF, 0x3F, 0xFF, 0x3F]] := by
  refine ⟨toAbsHid_center, ?_, ?_⟩ <;>
    · rw [agentClickReports, toAbsHid_center]
      decide

/-- C2 (amended): with identity calibration, `click(500, 500, "left")` emits
exactly three 5-byte reports — move `00 00 40 00 40`, press `01 00 40 00 40`,
release `00 00 40 00 40` — both coordinates being
`round(0.5 * 32767) = 16384 = 0x4000` in every report. -/
theorem abs_click_center_reports :
    agentClickReports 1 1 0 0 500 500 (chars "left")
      = some [[0, 0x00, 0x40, 0x00, 0x40],
              [1, 0x00, 0x40, 0x00, 0x40],
              [0, 0x00, 0x40, 0x00, 0x40]] := by
  rw [agentClickReports, toAbsHid_center]
  decide

/-! ### Agent absolute-cursor tracking: `KaiVMAgent._execute`
For `mouse_move`/`mouse_click` with absolute coordinates the runner computes
`(x_abs, y_abs) = _to_abs_hid(x, y)`, calls `abs_mouse.move`/`.click` (whose
`send_report` clamps each coordinate to `[0, 32767]` before packing it), and
then stores the unclamped `(x_abs, y_abs)` into
`_last_abs_x`/`_last_abs_y`. -/

structure AbsCursor where
  x : Option ℤ
  y : Option ℤ
deriving DecidableEq

/-- The two `_execute` branches that perform an absolute move or an absolute
click at explicit planner coordinates. -/
inductive AbsAct where
  | move (x y : ℤ)
  | click (button : List Char) (x y : ℤ)
deriving DecidableEq

/-- One step of `KaiVMAgent._execute` on an absolute action: emits the HID
reports and updates `_last_abs_x`/`_last_abs_y`; `none` models the
`ValueError` on an unknown button (raised before any report is sent). -/
def execAbs (sx sy ox oy : ℚ) (st : AbsCursor) : AbsAct → Option (AbsCursor × List (List ℕ))
  | .move x y =>
      let h := toAbsHid sx sy ox oy x y
      some (⟨some h.1, some h.2⟩, [absReport 0 h.1 h.2])
  | .click b x y =>
      let h := toAbsHid sx sy ox oy x y
      (absClick b h.1 h.2).map (fun rs => (⟨some h.1, some h.2⟩, rs))

/-- The `(x, y)` pair encoded in a 5-byte absolute report. -/
def decodeAbsXY (r : List ℕ) : ℤ × ℤ :=
  ((r.getD 1 0 : ℤ) + 256 * (r.getD 2 0 : ℤ),
   (r.getD 3 0 : ℤ) + 256 * (r.getD 4 0 : ℤ))

/-- The last absolute report emitted by a (successful) `execAbs` step. -/
def lastAbsReport (res : Option (AbsCursor × List (List ℕ))) : List ℕ :=
  (res.map (fun p => p.2.getLastD [])).getD []

/-- The cursor state stored by a (successful) `execAbs` step. -/
def storedCursor (res : Option (AbsCursor × List (List ℕ))) : Option AbsCursor :=
  res.map Prod.fst

theorem decode_absReport (b : ℕ) (x y : ℤ)
    (h1 : 0 ≤ x) (h2 : x ≤ 32767) (h3 : 0 ≤ y) (h4 : y ≤ 32767) :
    decodeAbsXY (absReport b x y) = (x, y) := by
  have hcx : clampAbs x = x := by simp only [clampAbs, max_def, min_def]; split_ifs <;> omega
  have hcy : clampAbs y = y := by simp only [clampAbs, max_def, min_def]; split_ifs <;> omega
  simp only [absReport, hcx, hcy, decodeAbsXY]
  simp only [List.getD_cons_succ, List.getD_cons_zero, Prod.mk.injEq]
  constructor <;> (push_cast; omega)

theorem toAbsHid_offset_overflow : toAbsHid 1 1 1 0 1000 0 = (65534, 0) := by
  unfold toAbsHid
  rw [show (((1000 : ℤ) : ℚ) / 1000 * 1 + 1) * 32767 = ((65534 : ℤ) : ℚ) from by
        push_cast; norm_num]
  rw [show (((0 : ℤ) : ℚ) / 1000 * 1 + 0) * 32767 = ((0 : ℤ) : ℚ) from by
        push_cast; norm_num]
  rw [pyRound_intCast, pyRound_intCast]

/-- C3 counterexample: with calibration `(1, 1, 1, 0)` (in-range per the data
model, which allows arbitrary reals) an absolute move to planner coordinates
`(1000, 0)` computes `x_abs = 65534`; `send_report` clamps the emitted
coordinate to `32767`, but `_last_abs_x` stores `65534`, so the stored cursor
differs from the coordinate encoded in the last (and only) report sent. -/
theorem abs_cursor_mismatch_counterexample :
    execAbs 1 1 1 0 ⟨none, none⟩ (AbsAct.move 1000 0)
      = some (⟨some 65534, some 0⟩, [[0, 255, 127, 0, 0]]) ∧
    decodeAbsXY [0, 255, 127, 0, 0] = (32767, 0) ∧
    (65534 : ℤ) ≠ 32767 := by
  refine ⟨?_, by decide, by decide⟩
  simp only [execAbs]
  rw [toAbsHid_offset_overflow]
  decide

/-- C3 (amended): for every calibration and planner coordinates, after an
executed absolute move or absolute click-with-coordinates the stored
`last_abs_cursor` equals the computed `_to_abs_hid` pair, and the `(x, y)`
encoded in the last absolute report equals that same pair whenever the
computed coordinates lie in `[0, 32767]` (in general the report carries the
clamped coordinates, the cursor the unclamped ones). -/
theorem abs_cursor_tracks_last_report (sx sy ox oy : ℚ) (x y : ℤ) (st : AbsCursor)
    (btn : List Char) (mask : ℕ) (hb : buttonMask btn = some mask)
    (h1 : 0 ≤ (toAbsHid sx sy ox oy x y).1) (h2 : (toAbsHid sx sy ox oy x y).1 ≤ 32767)
    (h3 : 0 ≤ (toAbsHid sx sy ox oy x y).2) (h4 : (toAbsHid sx sy ox oy x y).2 ≤ 32767) :
    (storedCursor (execAbs sx sy ox oy st (AbsAct.move x y))
        = some ⟨some (toAbsHid sx sy ox oy x y).1, some (toAbsHid sx sy ox oy x y).2⟩
      ∧ decodeAbsXY (lastAbsReport (execAbs sx sy ox oy st (AbsAct.move x y)))
        = ((toAbsHid sx sy ox oy x y).1, (toAbsHid sx sy ox oy x y).2))
    ∧ (storedCursor (execAbs sx sy ox oy st (AbsAct.click btn x y))
        = some ⟨some (toAbsHid sx sy ox oy x y).1, some (toAbsHid sx sy ox oy x y).2⟩
      ∧ decodeAbsXY (lastAbsReport (execAbs sx sy ox oy st (AbsAct.click btn x y)))
        = ((toAbsHid sx sy ox oy x y).1, (toAbsHid sx sy ox oy x y).2)) := by
  refine ⟨⟨rfl, decode_absReport 0 _ _ h1 h2 h3 h4⟩, ?_, ?_⟩
  · simp only [execAbs, absClick, hb, Option.map_some', storedCursor]
  · simp only [execAbs, absClick, hb, Option.map_some', lastAbsReport, Option.getD_some]
    exact decode_absReport 0 _ _ h1 h2 h3 h4

/-- Witness for C3 (amended) at identity calibration, a left click at
`(500, 500)`: the computed pair is `(16384, 16384)`, in range, and both the
stored cursor and the last report agree on it. -/
theorem abs_cursor_tracks_last_report_witness :
    buttonMask (chars "left") = some 1 ∧
    (0 ≤ (toAbsHid 1 1 0 0 500 500).1 ∧ (toAbsHid 1 1 0 0 500 500).1 ≤ 32767 ∧
     0 ≤ (toAbsHid 1 1 0 0 500 500).2 ∧ (toAbsHid 1 1 0 0 500 500).2 ≤ 32767) ∧
    (storedCursor (execAbs 1 1 0 0 ⟨none, none⟩ (AbsAct.click (chars "left") 500 500))
        = some ⟨some (toAbsHid 1 1 0 0 500 500).1, some (toAbsHid 1 1 0 0 500 500).2⟩
      ∧ decodeAbsXY (lastAbsReport (execAbs 1 1 0 0 ⟨none, none⟩
            (AbsAct.click (chars "left") 500 500)))
        = ((toAbsHid 1 1 0 0 500 500).1, (toAbsHid 1 1 0 0 500 500).2)) :=
  ⟨by decide,
   ⟨by rw [toAbsHid_center]; decide, by rw [toAbsHid_center]; decide,
    by rw [toAbsHid_center]; decide, by rw [toAbsHid_center]; decide⟩,
   (abs_cursor_tracks_last_report 1 1 0 0 500 500 ⟨none, none⟩ (chars "left") 1
      (by decide)
      (by rw [toAbsHid_center]; decide)
      (by rw [toAbsHid_center]; decide)
      (by rw [toAbsHid_center]; decide)
      (by rw [toAbsHid_center]; decide)).2⟩

/-! ### Python string helpers
`pyStrip`, `pyLower`, `pyUpper` model `str.strip()`, `str.lower()`,
`str.upper()` for the ASCII strings handled by the HID and runner code;
`splitOnChar` and `replaceChar` model `str.split` / `str.replace` for the
single-character separators used there. -/

/-- The whitespace set stripped by Python `str.strip()`. -/
def isPyWS (c : Char) : Bool :=
  decide (c = ' ') || decide (c = '\t') || decide (c = '\n') || decide (c = '\r') ||
  decide (c = Char.ofNat 11) || decide (c = Char.ofNat 12)

/-- `str.strip()`: drop whitespace from both ends. -/
def pyStrip (l : List Char) : List Char :=
  ((l.dropWhile isPyWS).reverse.dropWhile isPyWS).reverse

/-- ASCII `str.lower()` on one character. -/
def pyLowerChar (c : Char) : Char :=
  if 'A' ≤ c ∧ c ≤ 'Z' then Char.ofNat (c.toNat + 32) else c

/-- ASCII `str.upper()` on one character. -/
def pyUpperChar (c : Char) : Char :=
  if 'a' ≤ c ∧ c ≤ 'z' then Char.ofNat (c.toNat - 32) else c

/-- ASCII `str.lower()`. -/
def pyLower (l : List Char) : List Char := l.map pyLowerChar

/-- ASCII `str.upper()`. -/
def pyUpper (l : List Char) : List Char := l.map pyUpperChar

/-- `str.strip().lower()`, the normalisation used on key names. -/
def pyNorm (l : List Char) : List Char := pyLower (pyStrip l)

/-- `str.split(sep)` for a one-character separator. -/
def splitOnChar (sep : Char) : List Char → List (List Char)
  | [] => [[]]
  | c :: rest =>
    if c = sep then [] :: splitOnChar sep rest
    else match splitOnChar sep rest with
      | [] => [[c]]
      | p :: ps => (c :: p) :: ps

/-- `str.replace(a, b)` for one-character arguments. -/
def replaceChar (a b : Char) (l : List Char) : List Char :=
  l.map (fun c => if c = a then b else c)

/-! ### Keyboard mapping: `kaivm/hid/keyboard.py`
`ASCII_MAP` is built by loops over letters, digits/shifted digits, whitespace
and a punctuation table; `KEYCODES` holds named keys plus `F1..F12`;
`MOD_NAMES` maps modifier names to mask bits.  `send_hotkey` splits the combo
on `+` (after `-`→`+`), folds modifiers, resolves a single-character part via
`ASCII_MAP` (OR-ing its Shift into the mask) or a named part via `KEYCODES`,
and emits a press report followed by an all-zero release report. -/

/-- Association-list lookup on `List Char` keys (insertion order, first hit). -/
def lookupStr (t : List (List Char × α)) (k : List Char) : Option α :=
  (t.find? (fun p => decide (p.1 = k))).map (·.2)

/-- Association-list lookup on `Char` keys. -/
def lookupChar (t : List (Char × α)) (k : Char) : Option α :=
  (t.find? (fun p => decide (p.1 = k))).map (·.2)

/-- `ASCII_MAP` as built at import time: lowercase and uppercase letters,
digits and shifted digits, whitespace, then the punctuation table.  Entries
are `(char, (modifier_mask, keycode))`. -/
def asciiPairs : List (Char × (ℕ × ℕ)) :=
  ((List.range 26).map (fun i => (Char.ofNat (0x61 + i), ((0 : ℕ), 0x04 + i)))) ++
  ((List.range 26).map (fun i => (Char.ofNat (0x41 + i), ((2 : ℕ), 0x04 + i)))) ++
  ((List.range 10).map (fun i => ((chars "1234567890").getD i ' ', ((0 : ℕ), 0x1E + i)))) ++
  ((List.range 10).map (fun i => ((chars "!@#$%^&*()").getD i ' ', ((2 : ℕ), 0x1E + i)))) ++
  [(' ', (0, 0x2C)), ('\n', (0, 0x28)), ('\t', (0, 0x2B)),
   ('-', (0, 0x2D)), ('_', (2, 0x2D)),
   ('=', (0, 0x2E)), ('+', (2, 0x2E)),
   ('[', (0, 0x2F)), (Char.ofNat 0x7B, (2, 0x2F)),
   (']', (0, 0x30)), (Char.ofNat 0x7D, (2, 0x30)),
   (Char.ofNat 0x5C, (0, 0x31)), ('|', (2, 0x31)),
   (';', (0, 0x33)), (':', (2, 0x33)),
   (Char.ofNat 0x27, (0, 0x34)), (Char.ofNat 0x22, (2, 0x34)),
   (Char.ofNat 0x60, (0, 0x35)), ('~', (2, 0x35)),
   (',', (0, 0x36)), ('<', (2, 0x36)),
   ('.', (0, 0x37)), ('>', (2, 0x37)),
   ('/', (0, 0x38)), ('?', (2, 0x38))]

/-- `KEYCODES`: named keys plus the `F1..F12` loop. -/
def keycodesTable : List (List Char × ℕ) :=
  [(chars "ENTER", 0x28), (chars "ESC", 0x29), (chars "ESCAPE", 0x29),
   (chars "BACKSPACE", 0x2A), (chars "TAB", 0x2B), (chars "SPACE", 0x2C),
   (chars "CAPSLOCK", 0x39), (chars "LEFT", 0x50), (chars "RIGHT", 0x4F),
   (chars "UP", 0x52), (chars "DOWN", 0x51), (chars "DELETE", 0x4C),
   (chars "HOME", 0x4A), (chars "END", 0x4D), (chars "PAGEUP", 0x4B),
   (chars "PAGEDOWN", 0x4E)] ++
  (List.range 12).map (fun i => ('F' :: chars (toString (i + 1)), 0x3A + i))

/-- `MOD_NAMES`. -/
def modNamesTable : List (List Char × ℕ) :=
  [(chars "CTRL", 1), (chars "CONTROL", 1), (chars "SHIFT", 2), (chars "ALT", 4),
   (chars "GUI", 8), (chars "WIN", 8), (chars "WINDOWS", 8), (chars "CMD", 8),
   (chars "COMMAND", 8), (chars "SUPER", 8), (chars "META", 8)]

/-- The per-part fold of `send_hotkey`: modifier names OR their bit, a single
character consults `ASCII_MAP` (folding its Shift into the mask), otherwise
`KEYCODES`; an unknown part fails.  (The source's `p == " "` special cases are
unreachable here because every part has been stripped and is non-empty.) -/
def hotkeyGo : List (List Char) → ℕ → Option ℕ → Option (ℕ × ℕ)
  | [], m, key => key.map (fun k => (m, k))
  | p :: rest, m, key =>
    let up := pyUpper p
    match lookupStr modNamesTable up with
    | some mb => hotkeyGo rest (m ||| mb) key
    | none =>
      if p.length = 1 then
        match lookupChar asciiPairs (p.getD 0 ' ') with
        | some mk => hotkeyGo rest (m ||| mk.1) (some mk.2)
        | none =>
          match lookupStr keycodesTable up with
          | some kc => hotkeyGo rest m (some kc)
          | none => none
      else
        match lookupStr keycodesTable up with
        | some kc => hotkeyGo rest m (some kc)
        | none => none

/-- `send_hotkey(combo)` up to the final report emission: `none` models a
`False` return (empty combo, unknown part, or no non-modifier key); `some
(mod, keycode)` the accepted press parameters. -/
def parseHotkey (combo : List Char) : Option (ℕ × ℕ) :=
  let raw := pyStrip combo
  if raw = [] then none
  else
    let parts := ((splitOnChar '+' (replaceChar '-' '+' raw)).map pyStrip).filter
      (fun p => decide (p ≠ []))
    if parts = [] then none
    else hotkeyGo parts 0 none

/-- `_pack_report(mod, keys)`: 8 bytes `[mod & 0xFF, 0, k1..k6]`. -/
def packKbd (m : ℕ) (keys : List ℕ) : List ℕ :=
  [m % 256, 0] ++ (List.range 6).map (fun i => ((keys.take 6).getD i 0) % 256)

/-- The keyboard reports emitted by a successful `send_hotkey` (via
`send_key`): press `[mod, 0, keycode, 0…]`, then release `[0, 0, 0…]`. -/
def hotkeyReports (combo : List Char) : Option (List (List ℕ)) :=
  (parseHotkey combo).map (fun mk => [packKbd mk.1 [mk.2], packKbd 0 []])

/-- C5 counterexample: `send_hotkey("Ctrl+L")` resolves the single character
`L` through the case-sensitive `ASCII_MAP`, which carries Shift, so its press
report has modifier mask `0x03`, while `send_hotkey("ctrl+l")` produces mask
`0x01`: the two report sequences differ, refuting the claimed equality. -/
theorem hotkey_case_counterexample :
    hotkeyReports (chars "Ctrl+L")
      = some [[0x03, 0, 0x0F, 0, 0, 0, 0, 0], [0, 0, 0, 0, 0, 0, 0, 0]] ∧
    hotkeyReports (chars "ctrl+l")
      = some [[0x01, 0, 0x0F, 0, 0, 0, 0, 0], [0, 0, 0, 0, 0, 0, 0, 0]] ∧
    hotkeyReports (chars "Ctrl+L") ≠ hotkeyReports (chars "ctrl+l") := by
  refine ⟨?_, ?_, ?_⟩ <;> decide

/-- C5 (amended): hotkey parsing is case-insensitive for modifier names and
for named keys — `"ctrl+l"` and `"CONTROL+l"` emit identical report
sequences (press `01 00 0F 00…`, release zeros), and `"ctrl+ENTER"` equals
`"CTRL+enter"` — but a single-character key is looked up case-sensitively in
the ASCII map, so `"Ctrl+L"` additionally ORs Shift into the mask (same
keycode `0x0F`, modifier byte `0x03` instead of `0x01`). -/
theorem hotkey_case_insensitive_amended :
    hotkeyReports (chars "ctrl+l") = hotkeyReports (chars "CONTROL+l") ∧
    hotkeyReports (chars "ctrl+l")
      = some [[0x01, 0, 0x0F, 0, 0, 0, 0, 0], [0, 0, 0, 0, 0, 0, 0, 0]] ∧
    hotkeyReports (chars "ctrl+ENTER") = hotkeyReports (chars "CTRL+enter") ∧
    hotkeyReports (chars "Ctrl+L")
      = some [[0x03, 0, 0x0F, 0, 0, 0, 0, 0], [0, 0, 0, 0, 0, 0, 0, 0]] := by
  refine ⟨?_, ?_, ?_, ?_⟩ <;> decide

/-! ### Plan validation: `kaivm/agent/validate.py`
`parse_plan` requires the plan to be a dict whose `actions` value is a
non-empty list, then parses each action dict by its `type` tag, raising on the
first violation.  JSON values are modelled by `JVal`; Python `int(...)`
coercion accepts ints, bools and (stripped, optionally signed) digit strings. -/

/-- JSON-ish values as handed to `parse_plan` (floats do not occur in the
planner output handled here). -/
inductive JVal where
  | null
  | bool (b : Bool)
  | num (n : ℤ)
  | str (s : List Char)
  | arr (l : List JVal)
  | obj (fields : List (List Char × JVal))

/-- `dict.get(key)`. -/
def jGet (fields : List (List Char × JVal)) (k : List Char) : Option JVal :=
  (fields.find? (fun p => decide (p.1 = k))).map (·.2)

/-- `dict.get(key, default)`. -/
def jGetD (fields : List (List Char × JVal)) (k : List Char) (d : JVal) : JVal :=
  (jGet fields k).getD d

/-- `key in dict`. -/
def jHas (fields : List (List Char × JVal)) (k : List Char) : Bool :=
  (jGet fields k).isSome

/-- Parse an optionally signed digit string (the slice of Python `int(str)`
exercised here). -/
def parseIntChars (l : List Char) : Option ℤ :=
  let t := pyStrip l
  let core := if t.headD ' ' = '-' then t.tail else t
  if core = [] then none
  else if core.all (fun c => c.isDigit) then
    let n : ℕ := core.foldl (fun acc c => acc * 10 + (c.toNat - 48)) 0
    some (if t.headD ' ' = '-' then -(n : ℤ) else (n : ℤ))
  else none

/-- Python `int(value)`: ints pass through, bools become 0/1, digit strings
parse; anything else raises. -/
def pyInt : JVal → Except (List Char) ℤ
  | .num n => .ok n
  | .bool b => .ok (if b then 1 else 0)
  | .str s =>
    match parseIntChars s with
    | some n => .ok n
    | none => .error (chars "invalid literal for int")
  | _ => .error (chars "int conversion failed")

/-- Python `str(value)` for the values a `done.summary` can hold (the
container cases use a simplified rendering; no claim exercises them). -/
def jToText : JVal → List Char
  | .str s => s
  | .bool b => if b then chars "True" else chars "False"
  | .num n => chars (toString n)
  | .null => chars "None"
  | .arr _ => chars "[...]"
  | .obj _ => chars "{...}"

/-- `ALLOWED_TYPES`. -/
def allowedTypes : List (List Char) :=
  [chars "wait", chars "mouse_move", chars "mouse_click", chars "type_text",
   chars "key", chars "done"]

/-- `ALLOWED_BUTTONS`. -/
def allowedButtons : List (List Char) :=
  [chars "left", chars "right", chars "middle"]

/-- The `Action` dataclass of `validate.py` (also consumed by the runner);
named `KAction` here because `Action` collides with a Mathlib name. -/
structure KAction where
  type : List Char
  ms : Option ℤ := none
  dx : Option ℤ := none
  dy : Option ℤ := none
  x : Option ℤ := none
  y : Option ℤ := none
  button : Option (List Char) := none
  text : Option (List Char) := none
  key : Option (List Char) := none
  summary : Option (List Char) := none
deriving DecidableEq

/-- `_i8`: raises unless `-4096 ≤ x ≤ 4096` (despite its name it does not
clamp to i8; the i8 clamp happens later in HID framing). -/
def vI8 (x : ℤ) : Except (List Char) ℤ :=
  if x < -4096 ∨ 4096 < x then .error (chars "dx/dy must be in [-4096,4096]")
  else .ok x

/-- Parse one action dict (one iteration of the `parse_plan` loop). -/
def parseAction (v : JVal) : Except (List Char) KAction :=
  match v with
  | .obj a =>
    match jGet a (chars "type") with
    | some (.str t) =>
      if ¬ (t ∈ allowedTypes) then .error (chars "unsupported action type")
      else if t = chars "wait" then do
        let ms ← pyInt (jGetD a (chars "ms") (.num 0))
        if ms < 0 ∨ 60000 < ms then .error (chars "wait.ms out of range")
        else .ok { type := t, ms := some ms }
      else if t = chars "mouse_move" then do
        let withRel := jHas a (chars "dx") || jHas a (chars "dy")
        let withAbs := jHas a (chars "x") || jHas a (chars "y")
        let dx ← if withRel then do
            let d ← pyInt (jGetD a (chars "dx") (.num 0)); (vI8 d).map some
          else .ok none
        let dy ← if withRel then do
            let d ← pyInt (jGetD a (chars "dy") (.num 0)); (vI8 d).map some
          else .ok none
        let x ← if withAbs then (pyInt (jGetD a (chars "x") (.num 0))).map some
          else .ok none
        let y ← if withAbs then (pyInt (jGetD a (chars "y") (.num 0))).map some
          else .ok none
        .ok { type := t, dx := dx, dy := dy, x := x, y := y }
      else if t = chars "mouse_click" then
        match jGetD a (chars "button") (.str (chars "left")) with
        | .str btn =>
          if ¬ (btn ∈ allowedButtons) then .error (chars "mouse_click.button invalid")
          else do
            let withAbs := jHas a (chars "x") || jHas a (chars "y")
            let x ← if withAbs then (pyInt (jGetD a (chars "x") (.num 0))).map some
              else .ok none
            let y ← if withAbs then (pyInt (jGetD a (chars "y") (.num 0))).map some
              else .ok none
            .ok { type := t, button := some btn, x := x, y := y }
        | _ => .error (chars "mouse_click.button invalid")
      else if t = chars "type_text" then
        match jGetD a (chars "text") (.str []) with
        | .str s =>
          if 2000 < s.length then .error (chars "type_text.text invalid")
          else .ok { type := t, text := some s }
        | _ => .error (chars "type_text.text invalid")
      else if t = chars "key" then
        match jGetD a (chars "key") (.str []) with
        | .str s =>
          if 64 < s.length then .error (chars "key.key invalid")
          else .ok { type := t, key := some s }
        | _ => .error (chars "key.key invalid")
      else
        .ok { type := t, summary := some (jToText (jGetD a (chars "summary") (.str []))) }
    | _ => .error (chars "unsupported action type")
  | _ => .error (chars "each action must be object")

/-- The `parse_plan` loop body over the action list (first failure raises). -/
def parseActions : List JVal → Except (List Char) (List KAction)
  | [] => .ok []
  | v :: rest => do
    let a ← parseAction v
    let more ← parseActions rest
    .ok (a :: more)

/-- `parse_plan(plan)`. -/
def parsePlan (p : JVal) : Except (List Char) (List KAction) :=
  match p with
  | .obj o =>
    match jGet o (chars "actions") with
    | some (.arr []) => .error (chars "actions must be non-empty array")
    | some (.arr l) => parseActions l
    | _ => .error (chars "actions must be non-empty array")
  | _ => .error (chars "plan must be object")

deriving instance DecidableEq for Except

theorem parseActions_length : ∀ (l : List JVal) (acts : List KAction),
    parseActions l = .ok acts → acts.length = l.length := by
  intro l
  induction l with
  | nil => intro acts h; cases h; rfl
  | cons v rest ih =>
    intro acts h
    rw [parseActions] at h
    match hv : parseAction v with
    | .error e => rw [hv] at h; cases h
    | .ok a =>
      rw [hv] at h
      match hr : parseActions rest with
      | .error e => rw [hr] at h; cases h
      | .ok more =>
        rw [hr] at h
        cases h
        simp [ih more hr]

/-- A concrete `wait` action object. -/
def mkWaitJ (ms : ℤ) : JVal :=
  .obj [(chars "type", .str (chars "wait")), (chars "ms", .num ms)]

/-- A plan object with the given action list. -/
def mkPlanJ (acts : List JVal) : JVal :=
  .obj [(chars "reasoning", .str []), (chars "actions", .arr acts)]

/-- C6 counterexample: `parse_plan` imposes no upper bound on the number of
actions — a plan with nine `wait` actions parses successfully, so it is not
the case that every accepted plan has at most 8 actions (the `maxItems: 8`
bound lives only in the planner's JSON schema, which `parse_plan` does not
enforce). -/
theorem parse_plan_nine_actions_counterexample :
    parsePlan (mkPlanJ (List.replicate 9 (mkWaitJ 100)))
      = .ok (List.replicate 9 { type := chars "wait", ms := some 100 }) ∧
    (List.replicate 9 ({ type := chars "wait", ms := some 100 } : KAction)).length = 9 ∧
    ¬ (9 ≤ 8) := by
  refine ⟨by decide, by decide, by decide⟩

/-- C6 (amended): `parse_plan` fails on any plan whose `actions` field is
missing, not an array, or an empty array, and every plan it accepts contains
at least one action; the upper bound of 8 actions is enforced only by the
planner's JSON schema (`maxItems: 8`), not by `parse_plan`, which accepts
longer plans. -/
theorem parse_plan_nonempty_actions :
    (∀ o, jGet o (chars "actions") = none →
      parsePlan (.obj o) = .error (chars "actions must be non-empty array")) ∧
    (∀ o v, jGet o (chars "actions") = some v → (∀ xs, v ≠ JVal.arr xs) →
      parsePlan (.obj o) = .error (chars "actions must be non-empty array")) ∧
    (∀ o, jGet o (chars "actions") = some (.arr []) →
      parsePlan (.obj o) = .error (chars "actions must be non-empty array")) ∧
    (∀ (p : JVal) (acts : List KAction), parsePlan p = .ok acts → 1 ≤ acts.length) := by
  refine ⟨?_, ?_, ?_, ?_⟩
  · intro o h
    rw [parsePlan, h]
  · intro o v h hne
    rw [parsePlan, h]
    match v with
    | .null | .bool _ | .num _ | .str _ | .obj _ => rfl
    | .arr xs => exact absurd rfl (hne xs)
  · intro o h
    rw [parsePlan, h]
  · intro p acts h
    match p with
    | .null | .bool _ | .num _ | .str _ | .arr _ => simp [parsePlan] at h
    | .obj o =>
      rw [parsePlan] at h
      match ha : jGet o (chars "actions") with
      | none => rw [ha] at h; simp at h
      | some (.null) | some (.bool _) | some (.num _) | some (.str _) | some (.obj _) =>
        rw [ha] at h; simp at h
      | some (.arr []) => rw [ha] at h; simp at h
      | some (.arr (v :: rest)) =>
        rw [ha] at h
        have := parseActions_length (v :: rest) acts h
        simp only [List.length_cons] at this
        omega

/-- Witness for C6 (amended): each failure mode at a concrete plan, and a
concrete accepted plan with one action. -/
theorem parse_plan_nonempty_actions_witness :
    parsePlan (.obj []) = .error (chars "actions must be non-empty array") ∧
    parsePlan (.obj [(chars "actions", .num 3)])
      = .error (chars "actions must be non-empty array") ∧
    parsePlan (.obj [(chars "actions", .arr [])])
      = .error (chars "actions must be non-empty array") ∧
    1 ≤ [({ type := chars "wait", ms := some 5 } : KAction)].length :=
  ⟨parse_plan_nonempty_actions.1 [] rfl,
   parse_plan_nonempty_actions.2.1 [(chars "actions", .num 3)] (.num 3) rfl
     (fun xs h => nomatch h),
   parse_plan_nonempty_actions.2.2.1 [(chars "actions", .arr [])] rfl,
   parse_plan_nonempty_actions.2.2.2 (mkPlanJ [mkWaitJ 5])
     [{ type := chars "wait", ms := some 5 }] (by decide)⟩

/-- A `mouse_move` action object with only `dx` set. -/
def mkMoveDxJ (dx : ℤ) : JVal :=
  .obj [(chars "type", .str (chars "mouse_move")), (chars "dx", .num dx)]

/-- C7 counterexample: a `mouse_move` with `dx = 128` is accepted by
`parse_plan` (the validator bound is `[-4096, 4096]`), contradicting the
claim that validation rejects it. -/
theorem validate_dx128_counterexample :
    parsePlan (mkPlanJ [mkMoveDxJ 128])
      = .ok [{ type := chars "mouse_move", dx := some 128, dy := some 0 }] := by
  decide

/-- C7 (amended): a `mouse_move` with `dx = 128` passes plan validation
(the validator accepts `dx, dy ∈ [-4096, 4096]` and rejects `dx = 4097`),
while at the HID framing layer a delta of 128 is clamped to 127 in the
emitted report. -/
theorem validate_dx_bound_and_hid_clamp :
    parsePlan (mkPlanJ [mkMoveDxJ 128])
      = .ok [{ type := chars "mouse_move", dx := some 128, dy := some 0 }] ∧
    parsePlan (mkPlanJ [mkMoveDxJ 4097])
      = .error (chars "dx/dy must be in [-4096,4096]") ∧
    toI8 128 = 127 ∧
    packRel 0 128 0 = [0, 127, 0] := by
  refine ⟨by decide, by decide, by decide, by decide⟩

/-! ### Action normalisation: `kaivm/agent/runner.py`
The runner applies, in order: `_normalize_actions` (modifier/space coalescing
and modifier/type promotion), `_ensure_type_then_enter_wait` (insert a wait
between `type_text` and `key(enter)`), `_ensure_settle_after_enter` with the
launcher floor when a launcher combo is present and then with the search floor
when an address-bar combo is present, and finally `_cap_actions`. -/

/-- `a.key or ""`. -/
def keyStr (a : KAction) : List Char := a.key.getD []

/-- `a.type == "key"`. -/
def isKeyT (a : KAction) : Bool := decide (a.type = chars "key")

/-- `a.type == "wait"`. -/
def isWaitT (a : KAction) : Bool := decide (a.type = chars "wait")

/-- `a.type == "type_text"`. -/
def isTextT (a : KAction) : Bool := decide (a.type = chars "type_text")

/-- The `_is_cmd_like` name set. -/
def cmdLikeSet : List (List Char) :=
  [chars "command", chars "cmd", chars "gui", chars "win", chars "super", chars "meta"]

/-- `_is_cmd_like(s)`. -/
def isCmdLikeStr (s : List Char) : Bool := decide (pyNorm s ∈ cmdLikeSet)

/-- A `key` action whose key is cmd-like. -/
def isCmdKey (a : KAction) : Bool := isKeyT a && isCmdLikeStr (keyStr a)

/-- The `bkey == " " or bkey.strip().lower() in ("space",)` test. -/
def isSpaceKeyStr (s : List Char) : Bool :=
  decide (s = [' ']) || decide (pyNorm s = chars "space")

/-- A `key` action whose key normalises to `enter`. -/
def isEnterKey (a : KAction) : Bool :=
  isKeyT a && decide (pyNorm (keyStr a) = chars "enter")

/-- `Action(type="key", key=k)`. -/
def keyAct (k : List Char) : KAction := { type := chars "key", key := some k }

/-- `Action(type="wait", ms=ms)`. -/
def waitAct (ms : ℤ) : KAction := { type := chars "wait", ms := some ms }

/-- The promoted combo `Action(type="key", key=f"{a.key}+space")` (in the
branches that build it, `a.key` is present because `a` is cmd-like). -/
def promoted (a : KAction) : KAction := keyAct (keyStr a ++ chars "+space")

/-- `_normalize_actions`. -/
def normActions : List KAction → List KAction
  | [] => []
  | a :: rest =>
    if isCmdKey a then
      match rest with
      | [] => [a]
      | b :: rest2 =>
        if isKeyT b then
          if isSpaceKeyStr (keyStr b) then promoted a :: normActions rest2
          else a :: normActions (b :: rest2)
        else if isTextT b then promoted a :: normActions (b :: rest2)
        else
          match rest2 with
          | c :: _ =>
            if isWaitT b && isTextT c then promoted a :: normActions (b :: rest2)
            else a :: normActions (b :: rest2)
          | [] => a :: normActions (b :: rest2)
    else a :: normActions rest

/-- `_ensure_type_then_enter_wait`. -/
def typeEnterWait (w : ℤ) : List KAction → List KAction
  | a :: b :: rest =>
    if isTextT a && isEnterKey b then a :: waitAct w :: b :: typeEnterWait w rest
    else a :: typeEnterWait w (b :: rest)
  | l => l

/-- Index of the last `key(enter)` action, if any. -/
def lastEnterIdx : List KAction → Option ℕ
  | [] => none
  | a :: rest =>
    match lastEnterIdx rest with
    | some i => some (i + 1)
    | none => if isEnterKey a then some 0 else none

/-- `_ensure_settle_after_enter`: if the last enter is followed by a wait,
raise that wait to at least `m`; otherwise append a wait of `m`. -/
def settleAfterEnter (m : ℤ) (l : List KAction) : List KAction :=
  match lastEnterIdx l with
  | none => l
  | some i =>
    match l.get? (i + 1) with
    | some b =>
      if isWaitT b then
        if b.ms.getD 0 < m then l.set (i + 1) { b with ms := some m } else l
      else l ++ [waitAct m]
    | none => l ++ [waitAct m]

/-- `_is_launcher_key` name set. -/
def launcherSet : List (List Char) :=
  [chars "command+space", chars "win+r", chars "alt+f2"]

/-- `_is_addressbar_key` name set. -/
def addrSet : List (List Char) :=
  [chars "ctrl+l", chars "command+l", chars "alt+d"]

/-- A `key` action that is a launcher combo. -/
def isLauncherKey (a : KAction) : Bool :=
  isKeyT a && decide (pyNorm (keyStr a) ∈ launcherSet)

/-- A `key` action that is an address-bar combo. -/
def isAddrKey (a : KAction) : Bool :=
  isKeyT a && decide (pyNorm (keyStr a) ∈ addrSet)

/-- `any(a.type == "key" and _is_launcher_key(a.key or "") for a in actions)`. -/
def hasLauncher (l : List KAction) : Bool := l.any isLauncherKey

/-- `any(a.type == "key" and _is_addressbar_key(a.key or "") for a in actions)`. -/
def hasAddr (l : List KAction) : Bool := l.any isAddrKey

/-- `_cap_actions`. -/
def capActions (n : ℕ) (l : List KAction) : List KAction :=
  if l.length ≤ n then l
  else
    match l.getLast? with
    | some a => if isWaitT a then l.take (n - 1) ++ [a] else l.take n
    | none => l.take n

/-- The full normalisation pipeline as `KaiVMAgent.run` applies it to a parsed
plan: `_normalize_actions`, `_ensure_type_then_enter_wait(wt)`, the launcher
settle floor `la` (when a launcher combo is present), the address-bar settle
floor `ad` (when an address-bar combo is present), then `_cap_actions(cap)`.
Defaults: `wt = 50`, `la = 1000`, `ad = 1500`, `cap = 5`. -/
def normalizeActs (wt la ad : ℤ) (cap : ℕ) (p : List KAction) : List KAction :=
  let x2 := typeEnterWait wt (normActions p)
  let x3 := if hasLauncher x2 then settleAfterEnter la x2 else x2
  let x4 := if hasAddr x3 then settleAfterEnter ad x3 else x3
  capActions cap x4

/-- The six-action plan refuting idempotence at the default parameters. -/
def ceNormPlan : List KAction :=
  [keyAct (chars "ctrl+l"), keyAct (chars "enter"), waitAct 10,
   keyAct (chars "b"), keyAct (chars "c"), keyAct (chars "enter")]

/-- C9 counterexample: on the parsed plan
`[key(ctrl+l), key(enter), wait(10), key(b), key(c), key(enter)]` the
normaliser (defaults `wt=50, la=1000, ad=1500, cap=5`) yields
`[key(ctrl+l), key(enter), wait(10), key(b), wait(1500)]` — the address-bar
settle appends `wait(1500)` after the last enter and the cap then drops that
enter while keeping the appended wait — and a second application raises the
`wait(10)` after the (now last) first enter to `wait(1500)`, so
`normalize(normalize(p)) ≠ normalize(p)`. -/
theorem normalize_not_idempotent_counterexample :
    normalizeActs 50 1000 1500 5 ceNormPlan
      = [keyAct (chars "ctrl+l"), keyAct (chars "enter"), waitAct 10,
         keyAct (chars "b"), waitAct 1500] ∧
    normalizeActs 50 1000 1500 5 (normalizeActs 50 1000 1500 5 ceNormPlan)
      = [keyAct (chars "ctrl+l"), keyAct (chars "enter"), waitAct 1500,
         keyAct (chars "b"), waitAct 1500] ∧
    normalizeActs 50 1000 1500 5 (normalizeActs 50 1000 1500 5 ceNormPlan)
      ≠ normalizeActs 50 1000 1500 5 ceNormPlan := by
  refine ⟨by decide, by decide, by decide⟩

theorem dropWhile_head_false {p : α → Bool} {a : α} {l : List α} (h : p a = false) :
    (a :: l).dropWhile p = a :: l := by
  simp [List.dropWhile_cons, h]

theorem strip_back_append_space (D : List Char) :
    ((D ++ chars "+space").reverse.dropWhile isPyWS).reverse = D ++ chars "+space" := by
  have h1 : (D ++ chars "+space").reverse = 'e' :: (chars "caps+" ++ D.reverse) := by
    rw [List.reverse_append, show (chars "+space").reverse = 'e' :: chars "caps+" from by decide,
        List.cons_append]
  rw [h1, dropWhile_head_false (by decide), ← h1, List.reverse_reverse]

theorem pyStrip_append_space (k : List Char) :
    pyStrip (k ++ chars "+space") = k.dropWhile isPyWS ++ chars "+space" := by
  rw [pyStrip, List.dropWhile_append]
  by_cases h : (k.dropWhile isPyWS).isEmpty
  · rw [if_pos h, show (chars "+space").dropWhile isPyWS = chars "+space" from by decide]
    rw [List.isEmpty_iff] at h
    rw [h, List.nil_append]
    exact strip_back_append_space []
  · rw [if_neg h]
    exact strip_back_append_space _

theorem pyNorm_append_space (k : List Char) :
    pyNorm (k ++ chars "+space") = pyLower (k.dropWhile isPyWS) ++ chars "+space" := by
  rw [pyNorm, pyStrip_append_space, pyLower, List.map_append,
      show List.map pyLowerChar (chars "+space") = chars "+space" from by decide]
  rfl

theorem pyNorm_append_space_getLast (k : List Char) :
    (pyNorm (k ++ chars "+space")).getLast? = some 'e' := by
  rw [pyNorm_append_space, List.getLast?_append_of_ne_nil _ (by decide)]
  decide

theorem pyNorm_append_space_length (k : List Char) :
    6 ≤ (pyNorm (k ++ chars "+space")).length := by
  rw [pyNorm_append_space, List.length_append,
      show (chars "+space").length = 6 from by decide]
  omega

theorem isCmdLikeStr_append_space (k : List Char) :
    isCmdLikeStr (k ++ chars "+space") = false := by
  rw [isCmdLikeStr, decide_eq_false_iff_not]
  intro hmem
  have hl := pyNorm_append_space_getLast k
  simp only [cmdLikeSet, List.mem_cons, List.not_mem_nil, or_false] at hmem
  rcases hmem with h | h | h | h | h | h <;> (rw [h] at hl; exact absurd hl (by decide))

theorem isSpaceKeyStr_append_space (k : List Char) :
    isSpaceKeyStr (k ++ chars "+space") = false := by
  rw [isSpaceKeyStr, Bool.or_eq_false_iff, decide_eq_false_iff_not,
      decide_eq_false_iff_not]
  constructor
  · intro h
    have := congrArg List.length h
    simp only [List.length_append] at this
    rw [show (chars "+space").length = 6 from by decide] at this
    simp at this
  · intro h
    have h1 := pyNorm_append_space_length k
    rw [h] at h1
    exact absurd h1 (by decide)

theorem pyNorm_append_space_ne_enter (k : List Char) :
    ¬ (pyNorm (k ++ chars "+space") = chars "enter") := by
  intro h
  have h1 := pyNorm_append_space_length k
  rw [h] at h1
  exact absurd h1 (by decide)

theorem isKeyT_promoted (a : KAction) : isKeyT (promoted a) = true := by
  rw [isKeyT]
  exact decide_eq_true rfl

theorem isTextT_promoted (a : KAction) : isTextT (promoted a) = false := by
  rw [isTextT, show (promoted a).type = chars "key" from rfl]
  decide

theorem isWaitT_promoted (a : KAction) : isWaitT (promoted a) = false := by
  rw [isWaitT, show (promoted a).type = chars "key" from rfl]
  decide

theorem keyStr_promoted (a : KAction) : keyStr (promoted a) = keyStr a ++ chars "+space" :=
  rfl

theorem isCmdKey_promoted (a : KAction) : isCmdKey (promoted a) = false := by
  rw [isCmdKey, keyStr_promoted, isCmdLikeStr_append_space, Bool.and_false]

theorem isEnterKey_promoted (a : KAction) : isEnterKey (promoted a) = false := by
  rw [isEnterKey, keyStr_promoted]
  rw [decide_eq_false (pyNorm_append_space_ne_enter (keyStr a)), Bool.and_false]

theorem isTextT_of_key {a : KAction} (h : isKeyT a = true) : isTextT a = false := by
  rw [isKeyT, decide_eq_true_iff] at h
  rw [isTextT, h]
  decide

theorem isWaitT_of_key {a : KAction} (h : isKeyT a = true) : isWaitT a = false := by
  rw [isKeyT, decide_eq_true_iff] at h
  rw [isWaitT, h]
  decide

theorem isKeyT_of_wait {a : KAction} (h : isWaitT a = true) : isKeyT a = false := by
  rw [isWaitT, decide_eq_true_iff] at h
  rw [isKeyT, h]
  decide

theorem isTextT_of_wait {a : KAction} (h : isWaitT a = true) : isTextT a = false := by
  rw [isWaitT, decide_eq_true_iff] at h
  rw [isTextT, h]
  decide

theorem isKeyT_of_text {a : KAction} (h : isTextT a = true) : isKeyT a = false := by
  rw [isTextT, decide_eq_true_iff] at h
  rw [isKeyT, h]
  decide

theorem isWaitT_of_text {a : KAction} (h : isTextT a = true) : isWaitT a = false := by
  rw [isTextT, decide_eq_true_iff] at h
  rw [isWaitT, h]
  decide

theorem isCmdKey_of_not_key {a : KAction} (h : isKeyT a = false) : isCmdKey a = false := by
  rw [isCmdKey, h, Bool.false_and]

theorem isEnterKey_of_not_key {a : KAction} (h : isKeyT a = false) : isEnterKey a = false := by
  rw [isEnterKey, h, Bool.false_and]

theorem isEnterKey_not_cmd {a : KAction} (h : isEnterKey a = true) : isCmdKey a = false := by
  rw [isEnterKey, Bool.and_eq_true, decide_eq_true_iff] at h
  rw [isCmdKey, h.1, Bool.true_and, isCmdLikeStr, h.2]
  decide

theorem isEnterKey_waitAct (m : ℤ) : isEnterKey (waitAct m) = false := by
  rw [isEnterKey, isKeyT, show (waitAct m).type = chars "wait" from rfl,
      show decide (chars "wait" = chars "key") = false from by decide, Bool.false_and]

/-- The next-next action is a `type_text`. -/
def thirdText : List KAction → Bool
  | c :: _ => isTextT c
  | [] => false

/-- A `_normalize_actions` rewrite pattern starts at the head of the list. -/
def patHead : List KAction → Bool
  | a :: b :: rest =>
    isCmdKey a &&
    ((isKeyT b && isSpaceKeyStr (keyStr b)) || isTextT b ||
     (isWaitT b && thirdText rest))
  | _ => false

/-- No `_normalize_actions` pattern occurs anywhere in the list. -/
def nfN : List KAction → Bool
  | [] => true
  | a :: rest => !patHead (a :: rest) && nfN rest

/-- A `type_text`-then-`key(enter)` adjacency starts at the head. -/
def tePatHead : List KAction → Bool
  | a :: b :: _ => isTextT a && isEnterKey b
  | _ => false

/-- No `type_text`-then-`key(enter)` adjacency occurs in the list. -/
def nfT : List KAction → Bool
  | [] => true
  | a :: rest => !tePatHead (a :: rest) && nfT rest

theorem normActions_head (a : KAction) (rest : List KAction) :
    (∃ t, normActions (a :: rest) = a :: t) ∨
    (isCmdKey a = true ∧ ∃ t, normActions (a :: rest) = promoted a :: t) := by
  cases hc : isCmdKey a with
  | false =>
    exact Or.inl ⟨normActions rest, by rw [normActions.eq_def]; simp [hc]⟩
  | true =>
    match rest with
    | [] => exact Or.inl ⟨[], by rw [normActions.eq_def]; simp [hc]⟩
    | b :: rest2 =>
      cases hk : isKeyT b with
      | true =>
        cases hsp : isSpaceKeyStr (keyStr b) with
        | true =>
          exact Or.inr ⟨rfl, normActions rest2, by
            rw [normActions.eq_def]; simp [hc, hk, hsp]⟩
        | false =>
          exact Or.inl ⟨normActions (b :: rest2), by
            rw [normActions.eq_def]; simp [hc, hk, hsp]⟩
      | false =>
        cases ht : isTextT b with
        | true =>
          exact Or.inr ⟨rfl, normActions (b :: rest2), by
            rw [normActions.eq_def]; simp [hc, hk, ht]⟩
        | false =>
          match rest2 with
          | [] =>
            exact Or.inl ⟨normActions (b :: []), by
              rw [normActions.eq_def]; simp [hc, hk, ht]⟩
          | c :: rest3 =>
            cases hw : isWaitT b && isTextT c with
            | true =>
              exact Or.inr ⟨rfl, normActions (b :: c :: rest3), by
                rw [normActions.eq_def]; simp [hc, hk, ht, hw]⟩
            | false =>
              exact Or.inl ⟨normActions (b :: c :: rest3), by
                rw [normActions.eq_def]; simp [hc, hk, ht, hw]⟩

theorem typeEnterWait_head (w : ℤ) (a : KAction) (rest : List KAction) :
    ∃ t, typeEnterWait w (a :: rest) = a :: t := by
  match rest with
  | [] => exact ⟨[], rfl⟩
  | b :: rest2 =>
    cases hp : isTextT a && isEnterKey b with
    | true =>
      exact ⟨waitAct w :: b :: typeEnterWait w rest2, by
        rw [typeEnterWait.eq_def]; simp [hp]⟩
    | false =>
      exact ⟨typeEnterWait w (b :: rest2), by
        rw [typeEnterWait.eq_def]; simp [hp]⟩

theorem isKeyT_of_cmd {a : KAction} (h : isCmdKey a = true) : isKeyT a = true := by
  rw [isCmdKey, Bool.and_eq_true] at h
  exact h.1

theorem isCmdKey_of_wait {a : KAction} (h : isWaitT a = true) : isCmdKey a = false := by
  rw [isCmdKey, isKeyT_of_wait h, Bool.false_and]

theorem isCmdKey_of_text {a : KAction} (h : isTextT a = true) : isCmdKey a = false := by
  rw [isCmdKey, isKeyT_of_text h, Bool.false_and]

theorem patHead_cons2 (a b : KAction) (rest : List KAction) :
    patHead (a :: b :: rest)
      = (isCmdKey a &&
         ((isKeyT b && isSpaceKeyStr (keyStr b)) || isTextT b ||
          (isWaitT b && thirdText rest))) := rfl

theorem patHead_of_not_cmd {a : KAction} (hc : isCmdKey a = false) (l : List KAction) :
    patHead (a :: l) = false := by
  match l with
  | [] => rfl
  | b :: rest => rw [patHead_cons2, hc, Bool.false_and]

theorem nfN_cons (a : KAction) (rest : List KAction) :
    nfN (a :: rest) = (!patHead (a :: rest) && nfN rest) := rfl

theorem nfT_cons (a : KAction) (rest : List KAction) :
    nfT (a :: rest) = (!tePatHead (a :: rest) && nfT rest) := rfl

theorem normA_not_cmd {a : KAction} (hc : isCmdKey a = false) (rest : List KAction) :
    normActions (a :: rest) = a :: normActions rest := by
  rw [normActions.eq_def]; simp [hc]

theorem normA_cmd_nil {a : KAction} (hc : isCmdKey a = true) :
    normActions [a] = [a] := by
  rw [normActions.eq_def]; simp [hc]

theorem normA_single (a : KAction) : normActions [a] = [a] := by
  cases hc : isCmdKey a with
  | true => exact normA_cmd_nil hc
  | false => rw [normA_not_cmd hc]; rfl

theorem normA_key_space {a b : KAction} (hc : isCmdKey a = true) (hk : isKeyT b = true)
    (hsp : isSpaceKeyStr (keyStr b) = true) (rest2 : List KAction) :
    normActions (a :: b :: rest2) = promoted a :: normActions rest2 := by
  rw [normActions.eq_def]; simp [hc, hk, hsp]

theorem normA_key_nospace {a b : KAction} (hc : isCmdKey a = true) (hk : isKeyT b = true)
    (hsp : isSpaceKeyStr (keyStr b) = false) (rest2 : List KAction) :
    normActions (a :: b :: rest2) = a :: normActions (b :: rest2) := by
  rw [normActions.eq_def]; simp [hc, hk, hsp]

theorem normA_text {a b : KAction} (hc : isCmdKey a = true) (hk : isKeyT b = false)
    (ht : isTextT b = true) (rest2 : List KAction) :
    normActions (a :: b :: rest2) = promoted a :: normActions (b :: rest2) := by
  rw [normActions.eq_def]; simp [hc, hk, ht]

theorem normA_two {a b : KAction} (hc : isCmdKey a = true) (hk : isKeyT b = false)
    (ht : isTextT b = false) :
    normActions [a, b] = a :: normActions [b] := by
  rw [normActions.eq_def]; simp [hc, hk, ht]

theorem normA_wait_text {a b c : KAction} (hc : isCmdKey a = true) (hk : isKeyT b = false)
    (ht : isTextT b = false) (hw : (isWaitT b && isTextT c) = true) (rest3 : List KAction) :
    normActions (a :: b :: c :: rest3) = promoted a :: normActions (b :: c :: rest3) := by
  rw [normActions.eq_def]; simp [hc, hk, ht, hw]

theorem normA_other3 {a b c : KAction} (hc : isCmdKey a = true) (hk : isKeyT b = false)
    (ht : isTextT b = false) (hw : (isWaitT b && isTextT c) = false) (rest3 : List KAction) :
    normActions (a :: b :: c :: rest3) = a :: normActions (b :: c :: rest3) := by
  rw [normActions.eq_def]; simp [hc, hk, ht, hw]

theorem te_two (w : ℤ) {a b : KAction} (hp : (isTextT a && isEnterKey b) = true)
    (rest : List KAction) :
    typeEnterWait w (a :: b :: rest) = a :: waitAct w :: b :: typeEnterWait w rest := by
  rw [typeEnterWait.eq_def]; simp [hp]

theorem te_skip (w : ℤ) {a b : KAction} (hp : (isTextT a && isEnterKey b) = false)
    (rest : List KAction) :
    typeEnterWait w (a :: b :: rest) = a :: typeEnterWait w (b :: rest) := by
  rw [typeEnterWait.eq_def]; simp [hp]

theorem thirdText_nil : thirdText [] = false := rfl

theorem thirdText_cons (c : KAction) (t : List KAction) :
    thirdText (c :: t) = isTextT c := rfl

theorem patHead_head_cases {a h : KAction} {t : List KAction}
    (hcmd : isCmdKey a = true)
    (hkey : isKeyT h = true) (hsp : isSpaceKeyStr (keyStr h) = false) :
    patHead (a :: h :: t) = false := by
  rw [patHead_cons2, hkey, hsp, Bool.and_false, isTextT_of_key hkey,
      isWaitT_of_key hkey, Bool.false_and, Bool.or_false, Bool.or_false,
      Bool.and_false]

theorem nfN_norm_aux : ∀ (n : ℕ) (l : List KAction), l.length ≤ n →
    nfN (normActions l) = true := by
  intro n
  induction n with
  | zero =>
    intro l hl
    match l with
    | [] => rfl
  | succ n ih =>
    intro l hl
    match l with
    | [] => rfl
    | a :: rest =>
      simp only [List.length_cons] at hl
      cases hc : isCmdKey a with
      | false =>
        rw [normA_not_cmd hc, nfN_cons, patHead_of_not_cmd hc, Bool.not_false,
            Bool.true_and]
        exact ih rest (by omega)
      | true =>
        match rest with
        | [] =>
          rw [normA_cmd_nil hc]
          rfl
        | b :: rest2 =>
          simp only [List.length_cons] at hl
          cases hk : isKeyT b with
          | true =>
            cases hsp : isSpaceKeyStr (keyStr b) with
            | true =>
              rw [normA_key_space hc hk hsp, nfN_cons,
                  patHead_of_not_cmd (isCmdKey_promoted a), Bool.not_false, Bool.true_and]
              exact ih rest2 (by omega)
            | false =>
              rw [normA_key_nospace hc hk hsp]
              obtain ⟨t, hbt⟩ | ⟨-, t, hbt⟩ := normActions_head b rest2
              · rw [hbt, nfN_cons, patHead_head_cases hc hk hsp, Bool.not_false,
                    Bool.true_and, ← hbt]
                exact ih (b :: rest2) (by simp only [List.length_cons]; omega)
              · rw [hbt, nfN_cons,
                    patHead_head_cases hc (isKeyT_promoted b)
                      (by rw [keyStr_promoted]; exact isSpaceKeyStr_append_space _),
                    Bool.not_false, Bool.true_and, ← hbt]
                exact ih (b :: rest2) (by simp only [List.length_cons]; omega)
          | false =>
            cases htx : isTextT b with
            | true =>
              rw [normA_text hc hk htx, nfN_cons,
                  patHead_of_not_cmd (isCmdKey_promoted a), Bool.not_false, Bool.true_and]
              exact ih (b :: rest2) (by simp only [List.length_cons]; omega)
            | false =>
              match rest2 with
              | [] =>
                rw [normA_two hc hk htx, normA_single, nfN_cons, patHead_cons2, hk, htx]
                simp [thirdText_nil, show nfN [b] = true from rfl]
              | c :: rest3 =>
                simp only [List.length_cons] at hl
                cases hw : isWaitT b && isTextT c with
                | true =>
                  rw [normA_wait_text hc hk htx hw, nfN_cons,
                      patHead_of_not_cmd (isCmdKey_promoted a), Bool.not_false,
                      Bool.true_and]
                  exact ih (b :: c :: rest3) (by simp only [List.length_cons]; omega)
                | false =>
                  rw [normA_other3 hc hk htx hw,
                      normA_not_cmd (isCmdKey_of_not_key hk), nfN_cons, patHead_cons2,
                      hk, htx]
                  have htail : nfN (b :: normActions (c :: rest3)) = true := by
                    rw [← normA_not_cmd (isCmdKey_of_not_key hk)]
                    exact ih (b :: c :: rest3) (by simp only [List.length_cons]; omega)
                  cases hwb : isWaitT b with
                  | false =>
                    simp [htail]
                  | true =>
                    rw [hwb, Bool.true_and] at hw
                    obtain ⟨t, hct⟩ | ⟨-, t, hct⟩ := normActions_head c rest3
                    · rw [hct, thirdText_cons, hw]
                      simp [← hct, htail]
                    · rw [hct, thirdText_cons, isTextT_promoted]
                      simp [← hct, htail]

theorem nfN_normActions (l : List KAction) : nfN (normActions l) = true :=
  nfN_norm_aux l.length l le_rfl

theorem nfN_eq_aux : ∀ (n : ℕ) (l : List KAction), l.length ≤ n → nfN l = true →
    normActions l = l := by
  intro n
  induction n with
  | zero =>
    intro l hl hnf
    match l with
    | [] => rfl
  | succ n ih =>
    intro l hl hnf
    match l with
    | [] => rfl
    | a :: rest =>
      simp only [List.length_cons] at hl
      rw [nfN_cons, Bool.and_eq_true, Bool.not_eq_true'] at hnf
      obtain ⟨hpat, hrest⟩ := hnf
      cases hc : isCmdKey a with
      | false =>
        rw [normA_not_cmd hc, ih rest (by omega) hrest]
      | true =>
        match rest with
        | [] => exact normA_cmd_nil hc
        | b :: rest2 =>
          simp only [List.length_cons] at hl
          rw [patHead_cons2, hc, Bool.true_and, Bool.or_eq_false_iff,
              Bool.or_eq_false_iff] at hpat
          obtain ⟨⟨h1, h2⟩, h3⟩ := hpat
          cases hk : isKeyT b with
          | true =>
            have hsp : isSpaceKeyStr (keyStr b) = false := by
              rw [hk, Bool.true_and] at h1
              exact h1
            rw [normA_key_nospace hc hk hsp, ih (b :: rest2) (by simp only [List.length_cons]; omega) hrest]
          | false =>
            match rest2 with
            | [] =>
              rw [normA_two hc hk h2, normA_single]
            | c :: rest3 =>
              simp only [List.length_cons] at hl
              rw [thirdText_cons] at h3
              rw [normA_other3 hc hk h2 h3,
                  ih (b :: c :: rest3) (by simp only [List.length_cons]; omega) hrest]

theorem nfN_eq (l : List KAction) (h : nfN l = true) : normActions l = l :=
  nfN_eq_aux l.length l le_rfl h

theorem tePatHead_cons2 (a b : KAction) (rest : List KAction) :
    tePatHead (a :: b :: rest) = (isTextT a && isEnterKey b) := rfl

theorem isTextT_waitAct (m : ℤ) : isTextT (waitAct m) = false := by
  rw [isTextT, show (waitAct m).type = chars "wait" from rfl]
  decide

theorem isCmdKey_waitAct (m : ℤ) : isCmdKey (waitAct m) = false := by
  rw [isCmdKey, isKeyT, show (waitAct m).type = chars "wait" from rfl,
      show decide (chars "wait" = chars "key") = false from by decide, Bool.false_and]

theorem isKeyT_of_enter {a : KAction} (h : isEnterKey a = true) : isKeyT a = true := by
  rw [isEnterKey, Bool.and_eq_true] at h
  exact h.1

theorem tePat_of_not_text {a : KAction} (h : isTextT a = false) (l : List KAction) :
    tePatHead (a :: l) = false := by
  match l with
  | [] => rfl
  | b :: rest => rw [tePatHead_cons2, h, Bool.false_and]

theorem nfT_te_aux : ∀ (n : ℕ) (w : ℤ) (l : List KAction), l.length ≤ n →
    nfT (typeEnterWait w l) = true := by
  intro n
  induction n with
  | zero =>
    intro w l hl
    match l with
    | [] => rfl
  | succ n ih =>
    intro w l hl
    match l with
    | [] => rfl
    | [a] => rfl
    | a :: b :: rest =>
      simp only [List.length_cons] at hl
      cases hp : isTextT a && isEnterKey b with
      | true =>
        rw [Bool.and_eq_true] at hp
        rw [te_two w (by rw [hp.1, hp.2]; rfl)]
        rw [nfT_cons, tePatHead_cons2, isEnterKey_waitAct, Bool.and_false,
            Bool.not_false, Bool.true_and]
        rw [nfT_cons, tePatHead_cons2, isTextT_waitAct, Bool.false_and,
            Bool.not_false, Bool.true_and]
        rw [nfT_cons, tePat_of_not_text (isTextT_of_key (isKeyT_of_enter hp.2)),
            Bool.not_false, Bool.true_and]
        exact ih w rest (by omega)
      | false =>
        rw [te_skip w hp]
        obtain ⟨t, ht2⟩ := typeEnterWait_head w b rest
        rw [ht2, nfT_cons, tePatHead_cons2, hp, Bool.not_false, Bool.true_and, ← ht2]
        exact ih w (b :: rest) (by simp only [List.length_cons]; omega)

theorem nfT_te (w : ℤ) (l : List KAction) : nfT (typeEnterWait w l) = true :=
  nfT_te_aux l.length w l le_rfl

theorem te_eq_aux : ∀ (n : ℕ) (w : ℤ) (l : List KAction), l.length ≤ n →
    nfT l = true → typeEnterWait w l = l := by
  intro n
  induction n with
  | zero =>
    intro w l hl hnf
    match l with
    | [] => rfl
  | succ n ih =>
    intro w l hl hnf
    match l with
    | [] => rfl
    | [a] => rfl
    | a :: b :: rest =>
      simp only [List.length_cons] at hl
      rw [nfT_cons, Bool.and_eq_true, Bool.not_eq_true'] at hnf
      obtain ⟨hpat, hrest⟩ := hnf
      rw [tePatHead_cons2] at hpat
      rw [te_skip w hpat, ih w (b :: rest) (by simp only [List.length_cons]; omega) hrest]

theorem te_eq (w : ℤ) (l : List KAction) (h : nfT l = true) : typeEnterWait w l = l :=
  te_eq_aux l.length w l le_rfl h

theorem nfN_te_aux : ∀ (n : ℕ) (w : ℤ) (l : List KAction), l.length ≤ n →
    nfN l = true → nfN (typeEnterWait w l) = true := by
  intro n
  induction n with
  | zero =>
    intro w l hl hnf
    match l with
    | [] => rfl
  | succ n ih =>
    intro w l hl hnf
    match l with
    | [] => rfl
    | [a] => exact hnf
    | a :: b :: rest =>
      simp only [List.length_cons] at hl
      rw [nfN_cons, Bool.and_eq_true, Bool.not_eq_true'] at hnf
      obtain ⟨hpat, hrest⟩ := hnf
      cases hp : isTextT a && isEnterKey b with
      | true =>
        rw [Bool.and_eq_true] at hp
        rw [te_two w (by rw [hp.1, hp.2]; rfl)]
        rw [nfN_cons, patHead_of_not_cmd (isCmdKey_of_text hp.1), Bool.not_false,
            Bool.true_and]
        rw [nfN_cons, patHead_of_not_cmd (isCmdKey_waitAct w), Bool.not_false,
            Bool.true_and]
        rw [nfN_cons, patHead_of_not_cmd (isEnterKey_not_cmd hp.2), Bool.not_false,
            Bool.true_and]
        rw [nfN_cons, Bool.and_eq_true] at hrest
        exact ih w rest (by omega) hrest.2
      | false =>
        rw [te_skip w hp]
        have htail : nfN (typeEnterWait w (b :: rest)) = true :=
          ih w (b :: rest) (by simp only [List.length_cons]; omega) hrest
        rw [nfN_cons, htail, Bool.and_true, Bool.not_eq_true']
        cases hc : isCmdKey a with
        | false =>
          obtain ⟨t, ht2⟩ := typeEnterWait_head w b rest
          rw [ht2, patHead_of_not_cmd hc]
        | true =>
          rw [patHead_cons2, hc, Bool.true_and, Bool.or_eq_false_iff,
              Bool.or_eq_false_iff] at hpat
          obtain ⟨⟨h1, h2⟩, h3⟩ := hpat
          match rest with
          | [] =>
            rw [show typeEnterWait w [b] = [b] from rfl, patHead_cons2, hc,
                Bool.true_and, h1, h2, thirdText_nil, Bool.and_false]
            rfl
          | c :: rest3 =>
            rw [thirdText_cons] at h3
            cases hwb : isWaitT b with
            | false =>
              obtain ⟨t, ht2⟩ := typeEnterWait_head w b (c :: rest3)
              rw [ht2, patHead_cons2, hc, Bool.true_and, h1, h2, hwb, Bool.false_and,
                  Bool.or_false, Bool.or_false]
            | true =>
              have hpbc : (isTextT b && isEnterKey c) = false := by
                rw [isTextT_of_wait hwb, Bool.false_and]
              rw [te_skip w hpbc]
              obtain ⟨t2, ht3⟩ := typeEnterWait_head w c rest3
              rw [ht3, patHead_cons2, hc, Bool.true_and, h1, h2, thirdText_cons]
              rw [hwb, Bool.true_and] at h3
              rw [h3, Bool.and_false]
              rfl

theorem nfN_te (w : ℤ) (l : List KAction) (h : nfN l = true) :
    nfN (typeEnterWait w l) = true :=
  nfN_te_aux l.length w l le_rfl h

/-- Two actions with the same `type` and `key` (they are interchangeable for
every predicate the normaliser's control flow consults; only `ms` differs
after a settle update). -/
def sameShape (a b : KAction) : Prop := a.type = b.type ∧ a.key = b.key

/-- Pointwise `sameShape` on lists. -/
def shaped (l₁ l₂ : List KAction) : Prop := List.Forall₂ sameShape l₁ l₂

theorem shaped_refl (l : List KAction) : shaped l l :=
  List.forall₂_same.mpr (fun _ _ => ⟨rfl, rfl⟩)

theorem sameShape_isKeyT {a b : KAction} (h : sameShape a b) : isKeyT a = isKeyT b := by
  rw [isKeyT, isKeyT, h.1]

theorem sameShape_isWaitT {a b : KAction} (h : sameShape a b) : isWaitT a = isWaitT b := by
  rw [isWaitT, isWaitT, h.1]

theorem sameShape_isTextT {a b : KAction} (h : sameShape a b) : isTextT a = isTextT b := by
  rw [isTextT, isTextT, h.1]

theorem sameShape_keyStr {a b : KAction} (h : sameShape a b) : keyStr a = keyStr b := by
  rw [keyStr, keyStr, h.2]

theorem sameShape_isCmdKey {a b : KAction} (h : sameShape a b) :
    isCmdKey a = isCmdKey b := by
  rw [isCmdKey, isCmdKey, sameShape_isKeyT h, sameShape_keyStr h]

theorem sameShape_isEnterKey {a b : KAction} (h : sameShape a b) :
    isEnterKey a = isEnterKey b := by
  rw [isEnterKey, isEnterKey, sameShape_isKeyT h, sameShape_keyStr h]

theorem sameShape_isLauncherKey {a b : KAction} (h : sameShape a b) :
    isLauncherKey a = isLauncherKey b := by
  rw [isLauncherKey, isLauncherKey, sameShape_isKeyT h, sameShape_keyStr h]

theorem sameShape_isAddrKey {a b : KAction} (h : sameShape a b) :
    isAddrKey a = isAddrKey b := by
  rw [isAddrKey, isAddrKey, sameShape_isKeyT h, sameShape_keyStr h]

theorem shaped_hasLauncher {l₁ l₂ : List KAction} (h : shaped l₁ l₂) :
    hasLauncher l₁ = hasLauncher l₂ := by
  induction h with
  | nil => rfl
  | cons hab _ ih =>
    simp only [hasLauncher, List.any_cons] at *
    rw [sameShape_isLauncherKey hab, ih]

theorem shaped_hasAddr {l₁ l₂ : List KAction} (h : shaped l₁ l₂) :
    hasAddr l₁ = hasAddr l₂ := by
  induction h with
  | nil => rfl
  | cons hab _ ih =>
    simp only [hasAddr, List.any_cons] at *
    rw [sameShape_isAddrKey hab, ih]

theorem shaped_lastEnterIdx {l₁ l₂ : List KAction} (h : shaped l₁ l₂) :
    lastEnterIdx l₁ = lastEnterIdx l₂ := by
  induction h with
  | nil => rfl
  | cons hab _ ih =>
    rw [lastEnterIdx, lastEnterIdx, ih, sameShape_isEnterKey hab]

theorem shaped_length {l₁ l₂ : List KAction} (h : shaped l₁ l₂) :
    l₁.length = l₂.length :=
  List.Forall₂.length_eq h

theorem shaped_get? {l₁ l₂ : List KAction} (h : shaped l₁ l₂) (i : ℕ) :
    (l₁.get? i = none ∧ l₂.get? i = none) ∨
    (∃ x y, l₁.get? i = some x ∧ l₂.get? i = some y ∧ sameShape x y) := by
  induction h generalizing i with
  | nil => exact Or.inl ⟨rfl, rfl⟩
  | cons hab htl ih =>
    match i with
    | 0 => exact Or.inr ⟨_, _, rfl, rfl, hab⟩
    | i + 1 => exact ih i

theorem shaped_patHead {l₁ l₂ : List KAction} (h : shaped l₁ l₂) :
    patHead l₁ = patHead l₂ := by
  cases h with
  | nil => rfl
  | cons hab htl =>
    cases htl with
    | nil => rfl
    | @cons b₁ b₂ t₁ t₂ hbc htl2 =>
      rw [patHead_cons2, patHead_cons2, sameShape_isCmdKey hab, sameShape_isKeyT hbc,
          sameShape_isTextT hbc, sameShape_isWaitT hbc, sameShape_keyStr hbc]
      cases htl2 with
      | nil => rfl
      | cons hcd _ => rw [thirdText_cons, thirdText_cons, sameShape_isTextT hcd]

theorem shaped_tail {l₁ l₂ : List KAction} (h : shaped l₁ l₂) : shaped l₁.tail l₂.tail := by
  cases h with
  | nil => exact List.Forall₂.nil
  | cons _ htl => exact htl

theorem shaped_nfN {l₁ l₂ : List KAction} (h : shaped l₁ l₂) : nfN l₁ = nfN l₂ := by
  induction h with
  | nil => rfl
  | @cons a b t₁ t₂ hab htl ih =>
    rw [nfN_cons, nfN_cons, ih, shaped_patHead (List.Forall₂.cons hab htl)]

theorem shaped_tePatHead {l₁ l₂ : List KAction} (h : shaped l₁ l₂) :
    tePatHead l₁ = tePatHead l₂ := by
  cases h with
  | nil => rfl
  | cons hab htl =>
    cases htl with
    | nil => rfl
    | cons hbc _ =>
      rw [tePatHead_cons2, tePatHead_cons2, sameShape_isTextT hab,
          sameShape_isEnterKey hbc]

theorem shaped_nfT {l₁ l₂ : List KAction} (h : shaped l₁ l₂) : nfT l₁ = nfT l₂ := by
  induction h with
  | nil => rfl
  | @cons a b t₁ t₂ hab htl ih =>
    rw [nfT_cons, nfT_cons, ih, shaped_tePatHead (List.Forall₂.cons hab htl)]

theorem shaped_set {l : List KAction} {j : ℕ} {b b' : KAction}
    (hj : l.get? j = some b) (hsh : sameShape b b') : shaped l (l.set j b') := by
  induction l generalizing j with
  | nil => cases hj
  | cons x rest ih =>
    match j with
    | 0 =>
      rw [List.get?] at hj
      injection hj with hj
      subst hj
      exact List.Forall₂.cons hsh (shaped_refl rest)
    | j + 1 =>
      rw [List.get?] at hj
      exact List.Forall₂.cons ⟨rfl, rfl⟩ (ih hj)

/-- The last `key(enter)` (if any) is immediately followed by a `wait`. -/
def goodTail (l : List KAction) : Bool :=
  match lastEnterIdx l with
  | none => true
  | some i =>
    match l.get? (i + 1) with
    | some b => isWaitT b
    | none => false

/-- The last `key(enter)` (if any) is immediately followed by a `wait` of at
least `m` milliseconds. -/
def settleOK (m : ℤ) (l : List KAction) : Bool :=
  match lastEnterIdx l with
  | none => true
  | some i =>
    match l.get? (i + 1) with
    | some b => isWaitT b && decide (m ≤ b.ms.getD 0)
    | none => false

theorem settle_goodTail_cases (m : ℤ) (l : List KAction) (hg : goodTail l = true) :
    (lastEnterIdx l = none ∧ settleAfterEnter m l = l) ∨
    (∃ i b, lastEnterIdx l = some i ∧ l.get? (i + 1) = some b ∧ isWaitT b = true ∧
      ((b.ms.getD 0 < m ∧ settleAfterEnter m l = l.set (i + 1) { b with ms := some m }) ∨
       (m ≤ b.ms.getD 0 ∧ settleAfterEnter m l = l))) := by
  rw [goodTail] at hg
  match hi : lastEnterIdx l with
  | none =>
    refine Or.inl ⟨rfl, ?_⟩
    simp only [settleAfterEnter, hi]
  | some i =>
    rw [hi] at hg
    have hg2 : (match l.get? (i + 1) with
        | some b => isWaitT b
        | none => false) = true := hg
    match hb : l.get? (i + 1) with
    | none => rw [hb] at hg2; cases hg2
    | some b =>
      rw [hb] at hg2
      have hg3 : isWaitT b = true := hg2
      refine Or.inr ⟨i, b, rfl, hb, hg3, ?_⟩
      by_cases hms : b.ms.getD 0 < m
      · refine Or.inl ⟨hms, ?_⟩
        simp only [settleAfterEnter, hi, hb, hg3, if_true, if_pos hms]
      · refine Or.inr ⟨by omega, ?_⟩
        simp only [settleAfterEnter, hi, hb, hg3, if_true, if_neg hms]

theorem settle_shaped {m : ℤ} {l : List KAction} (hg : goodTail l = true) :
    shaped l (settleAfterEnter m l) := by
  obtain ⟨-, he⟩ | ⟨i, b, -, hb, -, ⟨-, he⟩ | ⟨-, he⟩⟩ := settle_goodTail_cases m l hg
  · rw [he]; exact shaped_refl l
  · rw [he]; exact shaped_set hb ⟨rfl, rfl⟩
  · rw [he]; exact shaped_refl l

theorem settleOK_settle {m : ℤ} {l : List KAction} (hg : goodTail l = true) :
    settleOK m (settleAfterEnter m l) = true := by
  obtain ⟨hi, he⟩ | ⟨i, b, hi, hb, hw, ⟨hms, he⟩ | ⟨hms, he⟩⟩ := settle_goodTail_cases m l hg
  · rw [he, settleOK, hi]
  · have hlen : i + 1 < l.length := (List.get?_eq_some.mp hb).1
    have hsh : shaped l (l.set (i + 1) { b with ms := some m }) :=
      shaped_set hb ⟨rfl, rfl⟩
    have hL : lastEnterIdx (l.set (i + 1) { b with ms := some m }) = some i := by
      rw [← shaped_lastEnterIdx hsh, hi]
    have hset : (l.set (i + 1) { b with ms := some m }).get? (i + 1)
        = some { b with ms := some m } := List.get?_set_eq_of_lt _ hlen
    rw [he]
    simp only [settleOK, hL, hset]
    have ht : isWaitT ({ b with ms := some m } : KAction) = isWaitT b := rfl
    rw [ht, hw, Bool.true_and, decide_eq_true_iff]
    show m ≤ (some m).getD 0
    rw [Option.getD_some]
  · rw [he]
    simp only [settleOK, hi, hb]
    rw [hw, Bool.true_and, decide_eq_true_iff]
    exact hms

theorem settle_of_settleOK {m : ℤ} {l : List KAction} (h : settleOK m l = true) :
    settleAfterEnter m l = l := by
  rw [settleOK] at h
  match hi : lastEnterIdx l with
  | none => simp only [settleAfterEnter, hi]
  | some i =>
    rw [hi] at h
    have h2 : (match l.get? (i + 1) with
        | some b => isWaitT b && decide (m ≤ b.ms.getD 0)
        | none => false) = true := h
    match hb : l.get? (i + 1) with
    | none => rw [hb] at h2; cases h2
    | some b =>
      rw [hb, Bool.and_eq_true, decide_eq_true_iff] at h2
      simp only [settleAfterEnter, hi, hb, h2.1, if_true, if_neg (by omega : ¬ b.ms.getD 0 < m)]

theorem settleOK_goodTail {m : ℤ} {l : List KAction} (h : settleOK m l = true) :
    goodTail l = true := by
  rw [settleOK] at h
  rw [goodTail]
  match hi : lastEnterIdx l with
  | none => rfl
  | some i =>
    rw [hi] at h
    show (match l.get? (i + 1) with
        | some b => isWaitT b
        | none => false) = true
    have h2 : (match l.get? (i + 1) with
        | some b => isWaitT b && decide (m ≤ b.ms.getD 0)
        | none => false) = true := h
    match hb : l.get? (i + 1) with
    | none => rw [hb] at h2; cases h2
    | some b =>
      rw [hb, Bool.and_eq_true] at h2
      exact h2.1

theorem settleOK_after_settle {m m' : ℤ} {l : List KAction} (hg : goodTail l = true)
    (h : settleOK m l = true) : settleOK m (settleAfterEnter m' l) = true := by
  obtain ⟨hi, he⟩ | ⟨i, b, hi, hb, hw, ⟨hms, he⟩ | ⟨hms, he⟩⟩ :=
    settle_goodTail_cases m' l hg
  · rw [he]; exact h
  · have hlen : i + 1 < l.length := (List.get?_eq_some.mp hb).1
    have hsh : shaped l (l.set (i + 1) { b with ms := some m' }) :=
      shaped_set hb ⟨rfl, rfl⟩
    have hL : lastEnterIdx (l.set (i + 1) { b with ms := some m' }) = some i := by
      rw [← shaped_lastEnterIdx hsh, hi]
    have hset : (l.set (i + 1) { b with ms := some m' }).get? (i + 1)
        = some { b with ms := some m' } := List.get?_set_eq_of_lt _ hlen
    rw [settleOK, hi] at h
    have h2 : (match l.get? (i + 1) with
        | some b => isWaitT b && decide (m ≤ b.ms.getD 0)
        | none => false) = true := h
    rw [hb, Bool.and_eq_true, decide_eq_true_iff] at h2
    rw [he]
    simp only [settleOK, hL, hset]
    have ht : isWaitT ({ b with ms := some m' } : KAction) = isWaitT b := rfl
    rw [ht, hw, Bool.true_and, decide_eq_true_iff]
    show m ≤ (some m').getD 0
    rw [Option.getD_some]
    have := h2.2
    omega
  · rw [he]; exact h

theorem goodTail_shape {l₁ l₂ : List KAction} (h : shaped l₁ l₂) :
    goodTail l₁ = goodTail l₂ := by
  rw [goodTail, goodTail, shaped_lastEnterIdx h]
  match hi : lastEnterIdx l₂ with
  | none => rfl
  | some i =>
    show (match l₁.get? (i + 1) with
        | some b => isWaitT b
        | none => false)
      = (match l₂.get? (i + 1) with
        | some b => isWaitT b
        | none => false)
    obtain ⟨h1, h2⟩ | ⟨x, y, h1, h2, hxy⟩ := shaped_get? h (i + 1)
    · rw [h1, h2]
    · simp only [h1, h2]
      rw [sameShape_isWaitT hxy]

theorem capActions_of_le (n : ℕ) (l : List KAction) (h : l.length ≤ n) :
    capActions n l = l := by
  rw [capActions, if_pos h]

theorem shaped_trans {l₁ l₂ l₃ : List KAction} (h1 : shaped l₁ l₂) (h2 : shaped l₂ l₃) :
    shaped l₁ l₃ := by
  induction h1 generalizing l₃ with
  | nil =>
    cases h2
    exact List.Forall₂.nil
  | cons hab htl ih =>
    cases h2 with
    | cons hbc htl2 =>
      exact List.Forall₂.cons ⟨hab.1.trans hbc.1, hab.2.trans hbc.2⟩ (ih htl2)

theorem normalize_fix (wt la ad : ℤ) (cap : ℕ) (y : List KAction)
    (h1 : nfN y = true) (h2 : nfT y = true)
    (h3 : hasLauncher y = true → settleOK la y = true)
    (h4 : hasAddr y = true → settleOK ad y = true)
    (h5 : y.length ≤ cap) :
    normalizeActs wt la ad cap y = y := by
  simp only [normalizeActs]
  rw [nfN_eq y h1, te_eq wt y h2]
  cases hL : hasLauncher y with
  | false =>
    simp only [Bool.false_eq_true, if_false]
    cases hA : hasAddr y with
    | false =>
      simp only [Bool.false_eq_true, if_false]
      exact capActions_of_le cap y h5
    | true =>
      simp only [if_true]
      rw [settle_of_settleOK (h4 hA)]
      exact capActions_of_le cap y h5
  | true =>
    simp only [if_true]
    rw [settle_of_settleOK (h3 hL)]
    cases hA : hasAddr y with
    | false =>
      simp only [Bool.false_eq_true, if_false]
      exact capActions_of_le cap y h5
    | true =>
      simp only [if_true]
      rw [settle_of_settleOK (h4 hA)]
      exact capActions_of_le cap y h5

/-- The two conditional settle stages of the pipeline. -/
def applySettles (la ad : ℤ) (x2 : List KAction) : List KAction :=
  let x3 := if hasLauncher x2 then settleAfterEnter la x2 else x2
  if hasAddr x3 then settleAfterEnter ad x3 else x3

theorem normalizeActs_eq_cap (wt la ad : ℤ) (cap : ℕ) (p : List KAction) :
    normalizeActs wt la ad cap p
      = capActions cap (applySettles la ad (typeEnterWait wt (normActions p))) := rfl

theorem applySettles_ff {la ad : ℤ} {x2 : List KAction}
    (hL : hasLauncher x2 = false) (hA : hasAddr x2 = false) :
    applySettles la ad x2 = x2 := by
  simp only [applySettles, hL, Bool.false_eq_true, if_false, hA]

theorem applySettles_ft {la ad : ℤ} {x2 : List KAction}
    (hL : hasLauncher x2 = false) (hA : hasAddr x2 = true) :
    applySettles la ad x2 = settleAfterEnter ad x2 := by
  simp only [applySettles, hL, Bool.false_eq_true, if_false, hA, if_true]

theorem applySettles_tf {la ad : ℤ} {x2 : List KAction}
    (hL : hasLauncher x2 = true) (hA : hasAddr (settleAfterEnter la x2) = false) :
    applySettles la ad x2 = settleAfterEnter la x2 := by
  simp only [applySettles, hL, if_true, hA, Bool.false_eq_true, if_false]

theorem applySettles_tt {la ad : ℤ} {x2 : List KAction}
    (hL : hasLauncher x2 = true) (hA : hasAddr (settleAfterEnter la x2) = true) :
    applySettles la ad x2 = settleAfterEnter ad (settleAfterEnter la x2) := by
  simp only [applySettles, hL, if_true, hA]

/-- C9 (amended): the normalisation pipeline is idempotent on every parsed
action list for which (a) whenever a launcher or address-bar combo is present
after the rewrite and wait-insertion stages, the last `key(enter)` (if any)
is immediately followed by a `wait` action, and (b) the action cap does not
truncate (the list after the rewrite and wait-insertion stages is within
`max_actions_per_step`).  Without (a) the settle stage appends a fresh wait
on each application, and without (b) the cap can drop the last enter so that
a second pass raises an earlier wait, as the counterexample shows. -/
theorem normalize_idempotent_amended (wt la ad : ℤ) (cap : ℕ) (p : List KAction)
    (hsettle : (hasLauncher (typeEnterWait wt (normActions p))
                || hasAddr (typeEnterWait wt (normActions p))) = true →
               goodTail (typeEnterWait wt (normActions p)) = true)
    (hcap : (typeEnterWait wt (normActions p)).length ≤ cap) :
    normalizeActs wt la ad cap (normalizeActs wt la ad cap p)
      = normalizeActs wt la ad cap p := by
  have hnfNM : nfN (typeEnterWait wt (normActions p)) = true :=
    nfN_te wt (normActions p) (nfN_normActions p)
  have hnfTM : nfT (typeEnterWait wt (normActions p)) = true :=
    nfT_te wt (normActions p)
  generalize hMdef : typeEnterWait wt (normActions p) = M at hsettle hcap hnfNM hnfTM
  cases hL : hasLauncher M with
  | false =>
    cases hA : hasAddr M with
    | false =>
      have hNp : normalizeActs wt la ad cap p = M := by
        rw [normalizeActs_eq_cap, hMdef, applySettles_ff hL hA,
            capActions_of_le cap M hcap]
      rw [hNp]
      exact normalize_fix wt la ad cap M hnfNM hnfTM
        (fun hx => absurd hx (by rw [hL]; exact Bool.false_ne_true))
        (fun hx => absurd hx (by rw [hA]; exact Bool.false_ne_true)) hcap
    | true =>
      have hg : goodTail M = true := hsettle (by rw [hL, hA]; rfl)
      have sh1 : shaped M (settleAfterEnter ad M) := settle_shaped hg
      have sOK : settleOK ad (settleAfterEnter ad M) = true := settleOK_settle hg
      have hNp : normalizeActs wt la ad cap p = settleAfterEnter ad M := by
        rw [normalizeActs_eq_cap, hMdef, applySettles_ft hL hA,
            capActions_of_le cap _ (by rw [← shaped_length sh1]; exact hcap)]
      rw [hNp]
      refine normalize_fix wt la ad cap _ ?_ ?_ ?_ ?_ ?_
      · rw [← shaped_nfN sh1]; exact hnfNM
      · rw [← shaped_nfT sh1]; exact hnfTM
      · intro hx
        rw [← shaped_hasLauncher sh1, hL] at hx
        exact absurd hx Bool.false_ne_true
      · intro hx
        exact sOK
      · rw [← shaped_length sh1]; exact hcap
  | true =>
    have hg : goodTail M = true := hsettle (by rw [hL, Bool.true_or])
    have sh1 : shaped M (settleAfterEnter la M) := settle_shaped hg
    have sOK1 : settleOK la (settleAfterEnter la M) = true := settleOK_settle hg
    have gt1 : goodTail (settleAfterEnter la M) = true := by
      rw [← goodTail_shape sh1]; exact hg
    cases hA : hasAddr M with
    | false =>
      have hA2 : hasAddr (settleAfterEnter la M) = false := by
        rw [← shaped_hasAddr sh1]; exact hA
      have hNp : normalizeActs wt la ad cap p = settleAfterEnter la M := by
        rw [normalizeActs_eq_cap, hMdef, applySettles_tf hL hA2,
            capActions_of_le cap _ (by rw [← shaped_length sh1]; exact hcap)]
      rw [hNp]
      refine normalize_fix wt la ad cap _ ?_ ?_ ?_ ?_ ?_
      · rw [← shaped_nfN sh1]; exact hnfNM
      · rw [← shaped_nfT sh1]; exact hnfTM
      · intro hx
        exact sOK1
      · intro hx
        rw [hA2] at hx
        exact absurd hx Bool.false_ne_true
      · rw [← shaped_length sh1]; exact hcap
    | true =>
      have hA2 : hasAddr (settleAfterEnter la M) = true := by
        rw [← shaped_hasAddr sh1]; exact hA
      have sh2 : shaped (settleAfterEnter la M)
          (settleAfterEnter ad (settleAfterEnter la M)) := settle_shaped gt1
      have shM : shaped M (settleAfterEnter ad (settleAfterEnter la M)) :=
        shaped_trans sh1 sh2
      have sOKad : settleOK ad (settleAfterEnter ad (settleAfterEnter la M)) = true :=
        settleOK_settle gt1
      have sOKla : settleOK la (settleAfterEnter ad (settleAfterEnter la M)) = true :=
        settleOK_after_settle gt1 sOK1
      have hNp : normalizeActs wt la ad cap p
          = settleAfterEnter ad (settleAfterEnter la M) := by
        rw [normalizeActs_eq_cap, hMdef, applySettles_tt hL hA2,
            capActions_of_le cap _ (by rw [← shaped_length shM]; exact hcap)]
      rw [hNp]
      refine normalize_fix wt la ad cap _ ?_ ?_ ?_ ?_ ?_
      · rw [← shaped_nfN shM]; exact hnfNM
      · rw [← shaped_nfT shM]; exact hnfTM
      · intro hx
        exact sOKla
      · intro hx
        exact sOKad
      · rw [← shaped_length shM]; exact hcap

/-- Witness for C9 (amended) on the concrete plan `[key(a), key(enter),
wait(20)]` with the default parameters: the intermediate list has length 3 ≤ 5
and its last enter is followed by a wait, and normalisation is idempotent on
it. -/
theorem normalize_idempotent_amended_witness :
    ((hasLauncher (typeEnterWait 50 (normActions
        [keyAct (chars "ctrl+l"), keyAct (chars "enter"), waitAct 20]))
      || hasAddr (typeEnterWait 50 (normActions
        [keyAct (chars "ctrl+l"), keyAct (chars "enter"), waitAct 20]))) = true →
     goodTail (typeEnterWait 50 (normActions
        [keyAct (chars "ctrl+l"), keyAct (chars "enter"), waitAct 20])) = true) ∧
    (typeEnterWait 50 (normActions
        [keyAct (chars "ctrl+l"), keyAct (chars "enter"), waitAct 20])).length ≤ 5 ∧
    normalizeActs 50 1000 1500 5 (normalizeActs 50 1000 1500 5
        [keyAct (chars "ctrl+l"), keyAct (chars "enter"), waitAct 20])
      = normalizeActs 50 1000 1500 5
        [keyAct (chars "ctrl+l"), keyAct (chars "enter"), waitAct 20] :=
  ⟨fun _ => by decide, by decide,
   normalize_idempotent_amended 50 1000 1500 5
     [keyAct (chars "ctrl+l"), keyAct (chars "enter"), waitAct 20]
     (fun _ => by decide) (by decide)⟩
